import Mathlib

/-!
Verification of the flow-calc dependency-graph evaluator.

The definitions below are a shallow embedding of the JavaScript sources
(src/index.js, src/d-nodes.js, src/object-path-utils.js, src/EventEmitter.js).
JavaScript data values are modelled by the inductive type JSVal: the JS value
undefined ("absent") is JSVal.undef, and numbers are modelled as integers
(no floating point arithmetic is exercised by the properties below).
-/

namespace FlowCalc

/-- A JavaScript data value as used by the engine: undefined, null, booleans,
numbers (restricted to integers), strings, arrays, and plain objects whose
fields are kept in insertion order. -/
inductive JSVal where
  | undef : JSVal
  | null : JSVal
  | bool : Bool → JSVal
  | num : Int → JSVal
  | str : String → JSVal
  | arr : List JSVal → JSVal
  | obj : List (String × JSVal) → JSVal
deriving Repr

mutual

/-- Structural equality test on values. -/
def JSVal.beq : JSVal → JSVal → Bool
  | .undef, .undef => true
  | .null, .null => true
  | .bool a, .bool b => a == b
  | .num a, .num b => a == b
  | .str a, .str b => a == b
  | .arr a, .arr b => JSVal.beqList a b
  | .obj a, .obj b => JSVal.beqFields a b
  | _, _ => false

/-- Structural equality test on lists of values. -/
def JSVal.beqList : List JSVal → List JSVal → Bool
  | [], [] => true
  | a :: as, b :: bs => JSVal.beq a b && JSVal.beqList as bs
  | _, _ => false

/-- Structural equality test on field lists. -/
def JSVal.beqFields : List (String × JSVal) → List (String × JSVal) → Bool
  | [], [] => true
  | (k, v) :: as, (l, w) :: bs => k == l && JSVal.beq v w && JSVal.beqFields as bs
  | _, _ => false

end

mutual

theorem JSVal.beq_iff : ∀ a b : JSVal, JSVal.beq a b = true ↔ a = b
  | .undef, b => by cases b <;> simp [JSVal.beq]
  | .null, b => by cases b <;> simp [JSVal.beq]
  | .bool _, b => by cases b <;> simp [JSVal.beq]
  | .num _, b => by cases b <;> simp [JSVal.beq]
  | .str _, b => by cases b <;> simp [JSVal.beq]
  | .arr as, b => by
      cases b <;> simp [JSVal.beq]
      exact JSVal.beqList_iff as _
  | .obj fs, b => by
      cases b <;> simp [JSVal.beq]
      exact JSVal.beqFields_iff fs _

theorem JSVal.beqList_iff : ∀ as bs : List JSVal, JSVal.beqList as bs = true ↔ as = bs
  | [], bs => by cases bs <;> simp [JSVal.beqList]
  | _ :: _, [] => by simp [JSVal.beqList]
  | a :: as, b :: bs => by
      simp [JSVal.beqList, JSVal.beq_iff a b, JSVal.beqList_iff as bs]

theorem JSVal.beqFields_iff :
    ∀ as bs : List (String × JSVal), JSVal.beqFields as bs = true ↔ as = bs
  | [], bs => by cases bs <;> simp [JSVal.beqFields]
  | _ :: _, [] => by simp [JSVal.beqFields]
  | (k, v) :: as, (l, w) :: bs => by
      simp [JSVal.beqFields, JSVal.beq_iff v w, JSVal.beqFields_iff as bs, and_assoc]

end

instance : DecidableEq JSVal := fun a b =>
  decidable_of_iff (JSVal.beq a b = true) (JSVal.beq_iff a b)

instance : BEq JSVal := ⟨JSVal.beq⟩

instance : LawfulBEq JSVal where
  eq_of_beq h := (JSVal.beq_iff _ _).mp h
  rfl := (JSVal.beq_iff _ _).mpr rfl

instance {ε α : Type} [DecidableEq ε] [DecidableEq α] : DecidableEq (Except ε α) := fun a b =>
  match a, b with
  | .ok x, .ok y => decidable_of_iff (x = y) (by simp)
  | .error x, .error y => decidable_of_iff (x = y) (by simp)
  | .ok _, .error _ => isFalse (by simp)
  | .error _, .ok _ => isFalse (by simp)

/-- String.prototype.startsWith for the hash prefix, written on the
character list so that it evaluates inside the kernel. -/
def startsWithHash (s : String) : Bool :=
  match s.toList with
  | [] => false
  | c :: _ => c == '#'

/-- JavaScript truthiness of a value (undefined, null, false, 0 and the
empty string are falsy; arrays and objects are always truthy). -/
def truthy : JSVal → Bool
  | .undef => false
  | .null => false
  | .bool b => b
  | .num n => n != 0
  | .str s => s != ""
  | .arr _ => true
  | .obj _ => true

/-- lodash isArray. -/
def isArrayJS : JSVal → Bool
  | .arr _ => true
  | _ => false

/-- lodash isObject: true for plain objects and for arrays (functions are not
representable in this data model). -/
def isObjectJS : JSVal → Bool
  | .arr _ => true
  | .obj _ => true
  | _ => false

/-- Look a key up in an object field list (first match). -/
def objLookup : List (String × JSVal) → String → Option JSVal
  | [], _ => none
  | (k, v) :: fs, key => if k = key then some v else objLookup fs key

/-- The effect of the JS assignment o[k] = v on an object: overwrite the
value in place if the key exists, otherwise append the key at the end. -/
def objSet : List (String × JSVal) → String → JSVal → List (String × JSVal)
  | [], key, v => [(key, v)]
  | (k, w) :: fs, key, v => if k = key then (k, v) :: fs else (k, w) :: objSet fs key v

mutual

/-- JS String(x) coercion, as used when a value is turned into an object key. -/
def jsKeyOfVal : JSVal → String
  | .undef => "undefined"
  | .null => "null"
  | .bool b => if b then "true" else "false"
  | .num n => toString n
  | .str s => s
  | .arr xs => jsKeyOfList xs
  | .obj _ => "[object Object]"

/-- JS Array.prototype.toString: elements joined by commas, with null and
undefined elements contributing the empty string. -/
def jsKeyOfList : List JSVal → String
  | [] => ""
  | [x] => jsKeyOfElem x
  | x :: y :: rest => jsKeyOfElem x ++ "," ++ jsKeyOfList (y :: rest)

/-- String coercion of a single array element. -/
def jsKeyOfElem : JSVal → String
  | .undef => ""
  | .null => ""
  | .bool b => if b then "true" else "false"
  | .num n => toString n
  | .str s => s
  | .arr xs => jsKeyOfList xs
  | .obj _ => "[object Object]"

end

/-- Split a character list at every dot, as JS String.prototype.split does
(so the empty list yields one empty segment). -/
def splitDots : List Char → List (List Char)
  | [] => [[]]
  | c :: rest =>
    match splitDots rest with
    | [] => [[]]
    | s :: ss => if c = '.' then [] :: s :: ss else (c :: s) :: ss

/-- Join segments with dots (inverse of splitDots on dot-free segments). -/
def joinDots : List (List Char) → List Char
  | [] => []
  | [s] => s
  | s :: s2 :: rest => s ++ '.' :: joinDots (s2 :: rest)

/-- JS path.split for a string path. -/
def splitPathJS (p : String) : List String :=
  (splitDots p.toList).map (fun cs => String.mk cs)

/-- Join path segments with dots, as JS Array.prototype.join does. -/
def joinPathStr (ss : List String) : String :=
  String.mk (joinDots (ss.map String.toList))


/-- The decimal digit characters, as a predicate. -/
def isDigitChar (c : Char) : Bool :=
  List.contains ['0', '1', '2', '3', '4', '5', '6', '7', '8', '9'] c

/-- The decimal digit character for a value below ten. -/
def digitChar : Nat → Char
  | 0 => '0' | 1 => '1' | 2 => '2' | 3 => '3' | 4 => '4'
  | 5 => '5' | 6 => '6' | 7 => '7' | 8 => '8' | 9 => '9'
  | _ => '?'

/-- The numeric value of a decimal digit character (ten on anything else). -/
def digitVal : Char → Nat
  | '0' => 0 | '1' => 1 | '2' => 2 | '3' => 3 | '4' => 4
  | '5' => 5 | '6' => 6 | '7' => 7 | '8' => 8 | '9' => 9
  | _ => 10

/-- The numeric value of a big-endian decimal digit string. -/
def parseDigitsVal (cs : List Char) : Nat :=
  cs.foldl (fun acc c => acc * 10 + digitVal c) 0

/-- The array index named by a property key, if any: JS arrays expose the
element at index n under exactly the canonical decimal string for n (all
digits, no leading zero except for "0" itself). -/
def arrayIndexKey? (cs : List Char) : Option Nat :=
  if !cs.isEmpty && cs.all isDigitChar && (cs == ['0'] || cs.head? != some '0') then
    some (parseDigitsVal cs)
  else none

/-- A JS line terminator, which the dot of a regular expression does not
match. -/
def isLineTerm (c : Char) : Bool :=
  c = '\n' || c = '\r' || c = '\u2028' || c = '\u2029'

/-- The three characters rePropName treats as structure: the dot and the
two brackets. -/
def isPathSpecial (c : Char) : Bool :=
  c = '.' || c = '[' || c = ']'

/-- The first alternative of lodash rePropName: the maximal run of
characters other than a dot and the two brackets, split off the front. -/
def propRun : List Char → List Char × List Char
  | [] => ([], [])
  | c :: rest =>
    if isPathSpecial c then ([], c :: rest)
    else (c :: (propRun rest).1, (propRun rest).2)

/-- The maximal run of decimal digits, split off the front. -/
def digitRun : List Char → List Char × List Char
  | [] => ([], [])
  | c :: rest =>
    if isDigitChar c then (c :: (digitRun rest).1, (digitRun rest).2)
    else ([], c :: rest)

/-- The unsigned part of the number branch of rePropName, entered after the
opening bracket and an optional sign: one or more digits, an optional
fractional part, then the closing bracket. Returns the number text and the
characters after the bracket. -/
def bracketNumTail (cs : List Char) : Option (List Char × List Char) :=
  match digitRun cs with
  | ([], _) => none
  | (ds, rest) =>
    match rest with
    | ']' :: rest2 => some (ds, rest2)
    | '.' :: rest2 =>
      match digitRun rest2 with
      | ([], _) => none
      | (fs, rest3) =>
        match rest3 with
        | ']' :: rest4 => some (ds ++ '.' :: fs, rest4)
        | _ => none
    | _ => none

/-- The number branch of rePropName entered after the opening bracket: an
optional minus sign followed by the unsigned number and the closing
bracket. -/
def bracketNum (cs : List Char) : Option (List Char × List Char) :=
  match cs with
  | '-' :: rest =>
    match bracketNumTail rest with
    | some pr => some ('-' :: pr.1, pr.2)
    | none => none
  | _ => bracketNumTail cs

/-- The lazy quoted-content scan of rePropName after the opening quote:
consume units (a character other than the quote and the backslash, or a
backslash followed by a non-line-terminator) until the first point where
the closing quote is immediately followed by the closing bracket. Returns
the raw content and the characters after the bracket. -/
def quotedTail (q : Char) : List Char → Option (List Char × List Char)
  | [] => none
  | c :: rest =>
    if c = q then
      match rest with
      | ']' :: rest2 => some ([], rest2)
      | _ => none
    else if c = '\\' then
      match rest with
      | [] => none
      | c2 :: rest2 =>
        if isLineTerm c2 then none
        else
          match quotedTail q rest2 with
          | some pr => some (c :: c2 :: pr.1, pr.2)
          | none => none
    else
      match quotedTail q rest with
      | some pr => some (c :: pr.1, pr.2)
      | none => none

/-- The replacement of lodash reEscapeChar on the quoted content: a
backslash followed by a backslash collapses to one backslash, any other
backslash is dropped. -/
def unescQuoted : List Char → List Char
  | '\\' :: '\\' :: rest => '\\' :: unescQuoted rest
  | '\\' :: rest => unescQuoted rest
  | c :: rest => c :: unescQuoted rest
  | [] => []

/-- The bracket alternative of rePropName entered after the opening
bracket: the number branch, else a single- or double-quoted string whose
content is unescaped before being pushed. -/
def bracketTok (cs : List Char) : Option (List Char × List Char) :=
  match bracketNum cs with
  | some pr => some pr
  | none =>
    match cs with
    | q :: rest =>
      if q = '"' || q = '\'' then
        match quotedTail q rest with
        | some pr => some (unescQuoted pr.1, pr.2)
        | none => none
      else none
    | [] => none

/-- The second token of the empty-match lookahead of rePropName: a dot, an
empty bracket pair, or the end of the string. -/
def followOk : List Char → Bool
  | [] => true
  | c :: rest =>
    if c = '.' then true
    else if c = '[' then
      match rest with
      | ']' :: _ => true
      | _ => false
    else false

/-- The empty-match alternative of rePropName: the scan position sits on a
dot or an empty bracket pair that is followed by a dot, an empty bracket
pair or the end of the string. -/
def lookaheadEmpty : List Char → Bool
  | [] => false
  | c :: rest =>
    if c = '.' then followOk rest
    else if c = '[' then
      match rest with
      | ']' :: rest2 => followOk rest2
      | _ => false
    else false

/-- The global scan of lodash rePropName over the path characters (the
String.prototype.replace loop in stringToPath): collect the matched tokens
left to right, trying the plain-run, bracket and empty-lookahead
alternatives in order at each position, pushing the empty string for an
empty match, and advancing one character past an empty match or an
unmatched character. The fuel only serves termination; any fuel of at
least the list length gives the scan. -/
def rePropScan : Nat → List Char → List String
  | 0, _ => []
  | _ + 1, [] => []
  | fuel + 1, c :: rest =>
    if isPathSpecial c then
      if c = '[' then
        match bracketTok rest with
        | some pr => String.mk pr.1 :: rePropScan fuel pr.2
        | none =>
          if lookaheadEmpty (c :: rest) then "" :: rePropScan fuel rest
          else rePropScan fuel rest
      else if c = '.' then
        if lookaheadEmpty (c :: rest) then "" :: rePropScan fuel rest
        else rePropScan fuel rest
      else rePropScan fuel rest
    else String.mk (c :: (propRun rest).1) :: rePropScan fuel (propRun rest).2

/-- lodash stringToPath: a leading dot contributes an initial empty
segment, then the rePropName scan collects the tokens. -/
def stringToPathJS (cs : List Char) : List String :=
  (if cs.head? = some '.' then [""] else []) ++ rePropScan cs.length cs

/-- lodash toPath on a string path, as setValueAtPath, getValueAtPath and
pathValueToObject split their path arguments. -/
def pathToSegs (p : String) : List String :=
  stringToPathJS p.toList

/-- The decimal digits of n, least significant first, with explicit fuel
(any fuel of at least n suffices, see natToRevChars_val). -/
def natToRevChars : Nat → Nat → List Char
  | 0, _ => []
  | fuel + 1, n =>
    if n < 10 then [digitChar n]
    else digitChar (n % 10) :: natToRevChars fuel (n / 10)

/-- The canonical decimal string for n, as JS Number.prototype.toString
produces for array indices. -/
def natToKey (n : Nat) : String :=
  String.mk (natToRevChars (n + 1) n).reverse

/-- The JS property access v[key]. Arrays are indexed by canonical decimal
strings; the length property of arrays and strings and character indexing of
strings are not modelled (no claim exercises them). -/
def jsGet (v : JSVal) (key : String) : JSVal :=
  match v with
  | .obj fs => (objLookup fs key).getD .undef
  | .arr xs =>
    match arrayIndexKey? key.toList with
    | some n => (xs[n]?).getD .undef
    | none => .undef
  | _ => JSVal.undef

/-- Descend through a value one segment at a time. A missing key yields
undefined, which then propagates (matching getValueAtPath in
object-path-utils.js, where a failing has-check returns undefined and a
final access on a missing key also yields undefined). -/
def segsGet : JSVal → List String → JSVal
  | v, [] => v
  | v, s :: rest => segsGet (jsGet v s) rest

/-- getValueAtPath from object-path-utils.js. On the empty path lodash
toPath yields no segments and the function returns obj[undefined], which is
undefined for every data value. -/
def getValueAtPath (v : JSVal) (path : String) : JSVal :=
  match pathToSegs path with
  | [] => JSVal.undef
  | segs => segsGet v segs

/-- Position k of the character list can serve as the wildcard star of the
regex in getValueAtPathWithArraySupport: the character there is a star, the
optional group before it is either absent (k = 0) or at least two characters
ending in a dot, and the optional group after it is either absent (the star
ends the path) or a dot followed by at least one character. -/
def validStar (cs : List Char) (k : Nat) : Bool :=
  (cs[k]? == some '*') &&
  (k == 0 || ((cs[k-1]? == some '.') && decide (2 ≤ k))) &&
  (k + 1 == cs.length || ((cs[k+1]? == some '.') && decide (k + 2 < cs.length)))

/-- The star position the greedy regex match selects: the largest valid one. -/
def lastValidStar (cs : List Char) : Option Nat :=
  ((List.range cs.length).filter (fun k => validStar cs k)).getLast?

/-- The quirk guarded by the TODO comment in getValueAtPathWithArraySupport:
an object holding an array under the literal key star is replaced by that
array before the is-array check. -/
def starUnwrap (a : JSVal) : JSVal :=
  match a with
  | .obj fs =>
    match objLookup fs "*" with
    | some (.arr xs) => .arr xs
    | _ => a
  | _ => a

/-- Core of getValueAtPathWithArraySupport from d-nodes.js, working on the
character list of the path. Interpolated data is elided from the error
messages. -/
def wildcardCore (v : JSVal) (cs : List Char) : Except String JSVal :=
  if cs.contains '*' then
    match lastValidStar cs with
    | none => .error "Unsupported array syntax in path. Only a single array wildcard can be iterated over."
    | some k =>
      match starUnwrap (if (if k = 0 then ([] : List Char) else cs.take (k - 1)).isEmpty
          then v else getValueAtPath v (String.mk (cs.take (k - 1)))) with
      | .arr xs =>
        .ok (.arr (xs.map (fun item =>
          if (if k + 1 = cs.length then ([] : List Char) else cs.drop (k + 2)).isEmpty
          then item else getValueAtPath item (String.mk (cs.drop (k + 2))))))
      | _ => .error "getValueAtPathWithArraySupport: value at path before the wildcard is not an array."
  else
    .ok (getValueAtPath v (String.mk cs))

/-- getValueAtPathWithArraySupport from d-nodes.js. -/
def getValueAtPathWithArraySupport (v : JSVal) (path : String) : Except String JSVal :=
  wildcardCore v path.toList

/-- Result of DGraph.srcFromPath: the node id and the remaining value path. -/
structure SrcRef where
  nodeId : String
  valuePath : Option String
deriving Repr, DecidableEq

/-- DGraph.srcFromPath from index.js. -/
def srcFromPath (p : String) : SrcRef :=
  match splitPathJS p with
  | [] => ⟨p, none⟩
  | [_] => ⟨p, none⟩
  | x :: rest => ⟨x, some (joinPathStr rest)⟩

/-- DNode.getGraphValueAt from d-nodes.js, with the enclosing graph
abstracted to a mapping from node names to their current values. When the
node id names no node the method logs the failure and then unconditionally
reads dNode.get on the undefined lookup result, which raises a TypeError;
that crash is modelled as an error result. When the node value is undefined
the value path is not applied and undefined is returned; otherwise a present
value path is applied with wildcard support (whose failures propagate). -/
def getGraphValueAtM (g : List (String × JSVal)) (srcPath : String) : Except String JSVal :=
  let src := srcFromPath srcPath
  match objLookup g src.nodeId with
  | none => .error "TypeError: cannot read properties of undefined"
  | some nv =>
    match nv, src.valuePath with
    | .undef, _ => .ok .undef
    | v, none => .ok v
    | v, some vp => getValueAtPathWithArraySupport v vp

/-- DereferenceDNode.value from d-nodes.js, with the enclosing graph
abstracted to a mapping from node names to their current values. The two
source paths have been normalized before construction; the getter first
checks that both referenced nodes exist (throwing otherwise), reads both
values, propagates undefined, and otherwise returns object[propName] if that
is truthy and null if it is falsy. -/
def derefValue (g : List (String × JSVal)) (objectSrcPath propNameSrcPath : String) :
    Except String JSVal :=
  if (objLookup g (srcFromPath objectSrcPath).nodeId).isNone then
    .error "No object node found in graph."
  else if (objLookup g (srcFromPath propNameSrcPath).nodeId).isNone then
    .error "No propName node found in graph."
  else do
    let object ← getGraphValueAtM g objectSrcPath
    let propName ← getGraphValueAtM g propNameSrcPath
    if object = JSVal.undef ∨ propName = JSVal.undef then
      pure .undef
    else
      let looked := jsGet object (jsKeyOfVal propName)
      pure (if truthy looked then looked else .null)

/-- The DGraph options relevant to state visibility. -/
structure DOptions where
  echoInputs : Bool
  echoTemplates : Bool
  echoIntermediates : Bool
deriving Repr, DecidableEq

/-- The data of a node that DNode.isVisibleInGraphState and
GraphDNode.isVisibleInGraphState inspect, together with its current value. -/
structure MNode where
  name : String
  isInputsNode : Bool
  isHidden : Bool
  isTemplateGraphNode : Bool
  value : JSVal
deriving Repr, DecidableEq

/-- isVisibleInGraphState: the base implementation in DNode plus the
template conjunct added by the GraphDNode override. -/
def isVisibleInGraphState (o : DOptions) (n : MNode) : Bool :=
  (!startsWithHash n.name || o.echoIntermediates) &&
  (!n.isInputsNode || o.echoInputs) &&
  !n.isHidden &&
  (!n.isTemplateGraphNode || o.echoTemplates)

/-- DGraph.getState: walk the node table in order and record the value of
every node that is visible (or every node, when includeInvisible). -/
def getState (o : DOptions) (nodes : List MNode) (includeInvisible : Bool) :
    List (String × JSVal) :=
  nodes.foldl
    (fun acc n =>
      if isVisibleInGraphState o n || includeInvisible then objSet acc n.name n.value
      else acc)
    []

/-- Association-list lookup (generic version of objLookup). -/
def assocLookup {α : Type} : List (String × α) → String → Option α
  | [], _ => none
  | (k, v) :: fs, key => if k = key then some v else assocLookup fs key

/-- Association-list assignment (generic version of objSet). -/
def assocSet {α : Type} : List (String × α) → String → α → List (String × α)
  | [], key, v => [(key, v)]
  | (k, w) :: fs, key, v => if k = key then (k, v) :: fs else (k, w) :: assocSet fs key v

/-- A listener registered on the event emitter. Function identity matters
(removeListener compares with indexOf), so listeners are identified by a
number; once registers a fresh wrapper closure that is never equal to the
plain listener it wraps. -/
inductive Listener where
  | plain : Nat → Listener
  | wrapper : String → Nat → Listener
deriving Repr, DecidableEq

/-- The events table of an EventEmitter. -/
abbrev Emitter : Type := List (String × List Listener)

/-- Remove the first occurrence of a listener from a list (the effect of
indexOf plus splice; absent listeners leave the list unchanged). -/
def eraseFirstListener : List Listener → Listener → List Listener
  | [], _ => []
  | x :: xs, fn => if x = fn then xs else x :: eraseFirstListener xs fn

/-- EventEmitter.addListener. -/
def addListener (em : Emitter) (name : String) (fn : Listener) : Emitter :=
  assocSet em name ((assocLookup em name).getD [] ++ [fn])

/-- EventEmitter.removeListener. -/
def removeListener (em : Emitter) (name : String) (fn : Listener) : Emitter :=
  match assocLookup em name with
  | none => em
  | some l => assocSet em name (eraseFirstListener l fn)

/-- EventEmitter.once: registers a wrapper that, when invoked, calls
removeListener with the wrapped listener and then invokes it. -/
def onceListener (em : Emitter) (name : String) (fnId : Nat) : Emitter :=
  addListener em name (.wrapper name fnId)

/-- Invoke one listener: the new emitter state and the ids of the underlying
listeners that ran. A wrapper first removes the plain listener it wraps
(which was never registered under that identity) and then runs it. -/
def runListener (em : Emitter) (l : Listener) : Emitter × List Nat :=
  match l with
  | .plain id => (em, [id])
  | .wrapper nm id => (removeListener em nm (.plain id), [id])

/-- The forEach loop inside EventEmitter.trigger: the length is captured
before the loop (modelled by the fuel), each index still present in the
possibly mutated array is visited, and mutations performed by listeners are
seen by later iterations. -/
def triggerLoop (name : String) : Nat → Nat → Emitter → Emitter × List Nat
  | _, 0, em => (em, [])
  | k, fuel + 1, em =>
    let cur := (assocLookup em name).getD []
    if h : k < cur.length then
      let p := runListener em (cur.get ⟨k, h⟩)
      let q := triggerLoop name (k + 1) fuel p.1
      (q.1, p.2 ++ q.2)
    else
      triggerLoop name (k + 1) fuel em

/-- EventEmitter.trigger. -/
def trigger (em : Emitter) (name : String) : Emitter × List Nat :=
  match assocLookup em name with
  | none => (em, [])
  | some l => triggerLoop name 0 l.length em

/-- Array.prototype.findIndex throws a TypeError whenever its argument is
not callable, and no data value is callable, so the call
cases.findIndex of the string default marker in BranchDNode throws
unconditionally. -/
def arrayFindIndexJS (_xs : List JSVal) (_pred : JSVal) : Except String Int :=
  .error "TypeError: predicate is not a function"

/-- BranchDNode switch: the findIndex call on the first line throws, so the
forEach below it is dead code; it is still transcribed faithfully, including
the branch that keeps overwriting the result with the default entry on every
non-matching case once a default index exists. -/
def branchSwitch (test : JSVal) (cases values : List JSVal) : Except String JSVal := do
  let defaultIdx ← arrayFindIndexJS cases (JSVal.str "_default_")
  let result := cases.enum.foldl
    (fun acc (ic : Nat × JSVal) =>
      if test = ic.2 then some ((values[ic.1]?).getD .undef)
      else if defaultIdx ≠ -1 then some ((values[defaultIdx.toNat]?).getD .undef)
      else acc)
    none
  pure (result.getD .undef)

/-- BranchDNode.value: select a node name with the switch and read the value
at that node path. -/
def branchValue (g : List (String × JSVal)) (test : JSVal) (cases values : List JSVal) :
    Except String JSVal := do
  let nodeName ← branchSwitch test cases values
  match nodeName with
  | .str s => getGraphValueAtM g s
  | _ => .error "TypeError: invalid node path"

/-- JS property read on a plain object (undefined when the key is absent). -/
def objGetD (fs : List (String × JSVal)) (k : String) : JSVal :=
  (objLookup fs k).getD JSVal.undef

/-- The rest pattern of a destructuring assignment: every field except k. -/
def objOmit (fs : List (String × JSVal)) (k : String) : List (String × JSVal) :=
  fs.filter (fun p => p.1 != k)

/-- A JS object literal built from the listed entries: keys keep the
position of their first occurrence and a later entry for the same key
overwrites the value, which is how a spread after a named property behaves. -/
def objLit (pairs : List (String × JSVal)) : List (String × JSVal) :=
  pairs.foldl (fun acc p => objSet acc p.1 p.2) []

/-- The collectionMode map branch of GraphDNode.waitForFulfillment together
with GraphDNode._runAsMap, entered once no resolved input is undefined. The
child graphs are fresh instances built from the same cloned graphDef and
options, so a run of one is abstracted as a function from its inputs to its
resolved state. An array input always passes both source checks (arrays are
truthy and lodash isArray accepts them); every other value for collection,
including a missing one, throws in one of the two checks, so the non-array
cases collapse to the error branch. -/
def runAsMapStep (runChild : List (String × JSVal) → JSVal)
    (args : List (String × JSVal)) : Except String JSVal :=
  match objGetD args "collection" with
  | .arr xs =>
    .ok (.arr (xs.map (fun item =>
      runChild (objLit (("item", item) :: objOmit args "collection")))))
  | _ => .error "collectionMode map requires an input named collection that resolves to a single array."

/-- A node declaration: mandatory name and type, all further declaration
fields kept as ordinary object fields. -/
structure NodeDef where
  name : String
  type : String
  fields : List (String × JSVal)
deriving Repr, DecidableEq

/-- Read a declaration field (undefined when absent). -/
def getNodeField (nd : NodeDef) (k : String) : JSVal :=
  (objLookup nd.fields k).getD JSVal.undef

/-- The node kinds registered in d-nodes.js. The source throws on an
unrecognized type before any behavior modelled here completes, so theorems
about whole definitions carry a known-kinds hypothesis. -/
def knownNodeType (t : String) : Bool :=
  ["static", "comments", "alias", "echo", "dereference", "transform",
   "inputs", "async", "branch", "graph"].contains t

/-- The static getPathProps declarations of the node kinds: field name and
its hasSubproperties flag. Kinds that do not override getPathProps declare
nothing. -/
def pathPropsOf : String → List (String × Bool)
  | "alias" => [("mirror", false)]
  | "echo" => [("inputName", false)]
  | "dereference" => [("objectPath", false), ("propNamePath", false)]
  | "transform" => [("params", true)]
  | "branch" => [("nodeNames", false)]
  | "graph" => [("inputs", true)]
  | _ => []

/-- lodash zipObject: assign values to keys in order; a missing value is
undefined, and a repeated key keeps its first position with the last value. -/
def zipObjectAux : List (String × JSVal) → List String → List JSVal → List (String × JSVal)
  | acc, [], _ => acc
  | acc, k :: ks, [] => zipObjectAux (objSet acc k .undef) ks []
  | acc, k :: ks, v :: vs => zipObjectAux (objSet acc k v) ks vs

/-- lodash zipObject. -/
def zipObjectJS (ks : List String) (vs : List JSVal) : List (String × JSVal) :=
  zipObjectAux [] ks vs

/-- DGraph.normalizePathDef from index.js: an array uses its entries (via
string coercion) as both keys and values, a string becomes a single
key-and-value pair, an object keeps its keys and values, and any other value
has no lodash keys and normalizes to the empty mapping. -/
def normalizePathDef : JSVal → List (String × JSVal)
  | .arr xs => zipObjectJS (xs.map jsKeyOfVal) xs
  | .str s => [(s, .str s)]
  | .obj fs => zipObjectJS (fs.map Prod.fst) (fs.map Prod.snd)
  | _ => []

/-- The alias names declared on a node. The source wraps a truthy non-array
in a singleton; alias names are strings in every definition this model
covers (a non-string alias would become a node whose name is not a string,
which the node table cannot represent here), and a falsy aliases field, such
as the empty string, declares nothing. -/
def aliasesOf (nd : NodeDef) : List String :=
  match getNodeField nd "aliases" with
  | .str s => if s = "" then [] else [s]
  | .arr xs => xs.filterMap (fun x => match x with | .str s => some s | _ => none)
  | _ => []

/-- The inputs node appended by the preprocessor. -/
def inputsNodeDef : NodeDef := ⟨"inputs", "inputs", [("value", .obj [])]⟩

/-- The first phase of DGraph._preprocessGraphDef: append an alias node for
every declared alias (the alias loop pushes while iterating, but pushed
alias nodes declare no aliases themselves, so the effect is this append),
then append the inputs node. -/
def withAliasesAndInputs (d : List NodeDef) : List NodeDef :=
  (d ++ d.flatMap (fun nd => (aliasesOf nd).map (fun a => ⟨a, "alias", [("mirror", .str nd.name)]⟩)))
    ++ [inputsNodeDef]

/-- The first dot segment of a path string (the whole string when it has no
dot), as the preprocessor and collectExpectedInputNames compute it. -/
def firstSegJS (s : String) : String :=
  match splitPathJS s with
  | [] => s
  | x :: _ => x

/-- Whether a normalized path-definition value counts as a node reference: a
string whose first segment is a declared node name. Everything else is a
literal. -/
def isNodeRef (names : List String) (v : JSVal) : Bool :=
  match v with
  | .str s => names.contains (firstSegJS s)
  | _ => false

/-- The name of a synthesized literal node. -/
def litNodeName (owner key : String) : String :=
  "#literal#" ++ owner ++ "#" ++ key

/-- Rewrite the entries of a normalized path-bearing field: references stay,
literals are replaced by a reference to their synthesized node. -/
def rewriteEntries (names : List String) (owner : String)
    (entries : List (String × JSVal)) : List (String × JSVal) :=
  entries.map (fun kv => if isNodeRef names kv.2 then kv else (kv.1, .str (litNodeName owner kv.1)))

/-- The static nodes synthesized for the literal entries of a field, in
entry order. -/
def literalNodesOf (names : List String) (owner : String)
    (entries : List (String × JSVal)) : List NodeDef :=
  entries.filterMap (fun kv =>
    if isNodeRef names kv.2 then none
    else some ⟨litNodeName owner kv.1, "static", [("value", kv.2)]⟩)

/-- One path-bearing field of the literal pass: a falsy field value is
skipped entirely (the source guards with a truthiness test), a truthy one is
normalized, rewritten in place and its literal nodes are collected. -/
def processStep (names : List String) (owner : String)
    (acc : NodeDef × List NodeDef) (pf : String × Bool) : NodeDef × List NodeDef :=
  if truthy (getNodeField acc.1 pf.1) then
    (⟨acc.1.name, acc.1.type,
      objSet acc.1.fields pf.1
        (.obj (rewriteEntries names owner (normalizePathDef (getNodeField acc.1 pf.1))))⟩,
     acc.2 ++ literalNodesOf names owner (normalizePathDef (getNodeField acc.1 pf.1)))
  else acc

/-- The literal pass of DGraph._preprocessGraphDef on one node. -/
def processNodeDef (names : List String) (nd : NodeDef) : NodeDef × List NodeDef :=
  (pathPropsOf nd.type).foldl (processStep names nd.name) (nd, [])

/-- DGraph._preprocessGraphDef: expand aliases, append the inputs node, then
hoist literals out of every path-bearing field against the full name list,
appending the synthesized static nodes after all declared nodes. -/
def preprocessGraphDef (d : List NodeDef) : List NodeDef :=
  (withAliasesAndInputs d).map
      (fun nd => (processNodeDef ((withAliasesAndInputs d).map (fun n => n.name)) nd).1)
    ++ (withAliasesAndInputs d).flatMap
      (fun nd => (processNodeDef ((withAliasesAndInputs d).map (fun n => n.name)) nd).2)

/-- String prefix test written on character lists so that it evaluates
inside the kernel. -/
def startsWithStr (p s : String) : Bool :=
  s.toList.take p.toList.length = p.toList

/-- Drop the first dot segment of a path and rejoin the rest, as
path.split, slice and join do in collectExpectedInputPaths. -/
def dropFirstSeg (s : String) : String :=
  joinPathStr ((splitPathJS s).drop 1)

/-- lodash uniq (keep the first occurrence), written with a seen accumulator
so that it is structurally recursive. -/
def uniqJSAux {α : Type} [DecidableEq α] : List α → List α → List α
  | _, [] => []
  | seen, x :: xs =>
    if x ∈ seen then uniqJSAux seen xs else x :: uniqJSAux (x :: seen) xs

/-- lodash uniq. -/
def uniqJS {α : Type} [DecidableEq α] (l : List α) : List α :=
  uniqJSAux [] l

/-- DGraph.collectExpectedInputPaths with recursive false, which is how run
uses it: for every declared node and every path-bearing field of its kind,
normalize the field and keep the string values that begin with the inputs
prefix, stripped of their first segment; finally deduplicate. -/
def collectExpectedInputPaths (d : List NodeDef) : List String :=
  uniqJS (d.flatMap (fun nd => (pathPropsOf nd.type).flatMap (fun pf =>
    (normalizePathDef (getNodeField nd pf.1)).filterMap (fun kv =>
      match kv.2 with
      | .str s => if startsWithStr "inputs." s then some (dropFirstSeg s) else none
      | _ => none))))

/-- DGraph.collectExpectedInputNames: the first segment of every expected
input path. -/
def collectExpectedInputNames (d : List NodeDef) : List String :=
  (collectExpectedInputPaths d).map firstSegJS

/-- The expected input names that the supplied inputs record does not
provide, in order, as the loop at the top of DGraph.run collects them. -/
def runMissingInputs (d : List NodeDef) (inputKeys : List String) : List String :=
  (uniqJS (collectExpectedInputNames d)).filter (fun n => !(inputKeys.contains n))

/-- The input-validation gate of DGraph.run: none means the run proceeds to
setInputs and the reactive driver, some carries the deduplicated missing
names the thrown error message lists. -/
def runGate (d : List NodeDef) (inputKeys : List String) : Option (List String) :=
  if (runMissingInputs d inputKeys).isEmpty then none
  else some (uniqJS (runMissingInputs d inputKeys))

mutual

/-- No mapping anywhere inside the value uses the literal key star (used to
characterize the wildcard reader on ordinary data). -/
def starFreeVal : JSVal → Bool
  | .obj fs => starFreeFields fs
  | .arr xs => starFreeList xs
  | _ => true

/-- starFreeVal on every element. -/
def starFreeList : List JSVal → Bool
  | [] => true
  | x :: xs => starFreeVal x && starFreeList xs

/-- starFreeVal on every field value, with no star key. -/
def starFreeFields : List (String × JSVal) → Bool
  | [] => true
  | (k, v) :: fs => (k != "*") && starFreeVal v && starFreeFields fs

end

/-- JS whitespace characters recognized when parseInt trims its argument
(the common ASCII set; exotic unicode spaces do not appear in this code). -/
def isJsSpace (c : Char) : Bool :=
  List.contains [' ', '\t', '\n', '\r', '\x0b', '\x0c'] c

/-- Whether parseInt(s, 10) yields a number rather than NaN: after optional
whitespace and an optional sign there must stand at least one decimal
digit. pathValueToObject uses this to decide between creating an array and
an object for the next path bit. -/
def intLikeJS (s : String) : Bool :=
  match s.toList.dropWhile isJsSpace with
  | [] => false
  | c :: rest =>
    if c == '+' || c == '-' then
      match rest with
      | [] => false
      | d :: _ => isDigitChar d
    else isDigitChar c

/-- lodash has (own-property test) on data values: objects expose their
keys, arrays their canonical indices below the length (the length property
itself is not modelled, as for jsGet); no primitive owns a property. -/
def jsHas (v : JSVal) (key : String) : Bool :=
  match v with
  | .obj fs => (objLookup fs key).isSome
  | .arr xs =>
    match arrayIndexKey? key.toList with
    | some n => decide (n < xs.length)
    | none => false
  | _ => false

/-- The character list of the dot escape sequence pathDotEscapeSeq. -/
def escSeqChars : List Char := ['_', '$', 'd', 'o', 't', '$', '_']

/-- Replace every dot by the escape sequence (String.prototype.replace with
the global dot pattern). -/
def escapeChars : List Char → List Char
  | [] => []
  | c :: rest => if c = '.' then escSeqChars ++ escapeChars rest else c :: escapeChars rest

/-- A key with its dots escaped. -/
def escapeKey (k : String) : String := String.mk (escapeChars k.toList)

mutual

/-- escapeObjectPaths from object-path-utils.js: rebuild a mapping with its
own keys dot-escaped (one level only; object values are not entered),
recurse through arrays, and leave every other value alone. -/
def escapeObjectPaths : JSVal → JSVal
  | .obj fs => .obj (fs.foldl (fun acc kv => objSet acc (escapeKey kv.1) kv.2) [])
  | .arr xs => .arr (escapeList xs)
  | v => v

/-- escapeObjectPaths on every element. -/
def escapeList : List JSVal → List JSVal
  | [] => []
  | x :: xs => escapeObjectPaths x :: escapeList xs

end

/-- Prefix every collected path with the parent and a dot, unless the
parent string is falsy (collectObjectPaths tests its truthiness). -/
def prefixParent (parent : String) (ps : List String) : List String :=
  if parent = "" then ps else ps.map (fun p => parent ++ "." ++ p)

mutual

/-- collectObjectPaths from object-path-utils.js for a value with a parent
prefix, as every recursive call of the source makes: a leaf contributes the
parent itself (the source returns the bare string, which the caller
concatenates as a single element); a container contributes its accumulated
paths, prefixed with the parent unless the parent string is falsy. -/
def copVal : JSVal → String → List String
  | .arr xs, parent => prefixParent parent (copList 0 xs)
  | .obj fs, parent => prefixParent parent (copFields fs)
  | _, parent => [parent]

/-- The array branch of collectObjectPaths: every element is collected
under its decimal index as parent. -/
def copList (i : Nat) : List JSVal → List String
  | [] => []
  | x :: xs => copVal x (natToKey i) ++ copList (i + 1) xs

/-- The object branch of collectObjectPaths: container fields are collected
under their escaped key as parent, leaf fields contribute the escaped key
itself. -/
def copFields : List (String × JSVal) → List String
  | [] => []
  | (k, v) :: fs =>
    (if isObjectJS v then copVal v (escapeKey k) else [escapeKey k]) ++ copFields fs

end

/-- A field name that survives the flatten and expand round trip: nonempty,
holding neither a dot nor a bracket (the rePropName scan of toPath would
re-split it, during flattening and on expansion) nor a dollar (which could
collide with the escape sequence), and not parseInt-parsable (expansion
would treat the bit as an array index). -/
def goodKey (k : String) : Bool :=
  !(k == "") && !(k.toList.contains '.') && !(k.toList.contains '$') && !(intLikeJS k) &&
    !(k.toList.contains '[') && !(k.toList.contains ']')

mutual

/-- Trees on which the flatten and expand round trip is the identity:
mappings carry pairwise distinct good keys, containers are nonempty (an
empty container contributes no path and is silently dropped by flatten),
and every leaf is a concrete scalar; undefined, which marks absence
elsewhere in this development, is excluded. -/
def goodTree : JSVal → Bool
  | .obj fs => !fs.isEmpty && goodFields fs
  | .arr xs => !xs.isEmpty && goodElems xs
  | .undef => false
  | _ => true

/-- goodTree on every field, with pairwise distinct keys. -/
def goodFields : List (String × JSVal) → Bool
  | [] => true
  | (k, v) :: fs =>
    goodKey k && !((fs.map Prod.fst).contains k) && goodTree v && goodFields fs

/-- goodTree on every element. -/
def goodElems : List JSVal → Bool
  | [] => true
  | x :: xs => goodTree x && goodElems xs

end

mutual

/-- The depth-first leaf paths of a container as segment lists paired with
the leaf values, in the traversal order of collectObjectPaths. -/
def dfsPairs : JSVal → List (List String × JSVal)
  | .arr xs => dfsElems 0 xs
  | .obj fs => dfsFields fs
  | _ => []

/-- dfsPairs under object fields. -/
def dfsFields : List (String × JSVal) → List (List String × JSVal)
  | [] => []
  | (k, v) :: fs =>
    (if isObjectJS v then (dfsPairs v).map (fun pr => (k :: pr.1, pr.2)) else [([k], v)]) ++
      dfsFields fs

/-- dfsPairs under array elements, counting indices from i. -/
def dfsElems (i : Nat) : List JSVal → List (List String × JSVal)
  | [] => []
  | x :: xs =>
    (if isObjectJS x then (dfsPairs x).map (fun pr => (natToKey i :: pr.1, pr.2))
     else [([natToKey i], x)]) ++ dfsElems (i + 1) xs

end

/-- The flat pairs a single child contributes: a container child prefixes
its own leaf paths with the key, a leaf child is one pair. -/
def childPairs (v : JSVal) (k : String) : List (List String × JSVal) :=
  if isObjectJS v then (dfsPairs v).map (fun pr => (k :: pr.1, pr.2)) else [([k], v)]

/-- The kind test pathValueToObject applies to an existing value before
walking on towards the next bit. -/
def okStep (v : JSVal) (b : String) : Bool :=
  if truthy v && intLikeJS b then isArrayJS v else isObjectJS v

/-- The worked example of the literal-inference scenario: a transform whose
params field holds one node reference and one numeric literal. -/
def exampleTransformDef : List NodeDef :=
  [⟨"t", "transform",
    [("fn", JSVal.str "mult"),
     ("params", JSVal.obj [("amt", JSVal.str "inputs.x"), ("factor", JSVal.num 3)])]⟩]

section Theorems

/-- Looking up the key just assigned by objSet yields the assigned value. -/
theorem objLookup_objSet_self (fs : List (String × JSVal)) (k : String) (v : JSVal) :
    objLookup (objSet fs k v) k = some v := by
  induction fs with
  | nil => simp [objSet, objLookup]
  | cons p rest ih =>
    obtain ⟨pk, pw⟩ := p
    by_cases h : pk = k
    · simp [objSet, objLookup, h]
    · simp [objSet, objLookup, h, ih]

/-- Looking up a different key after an objSet assignment is unchanged. -/
theorem objLookup_objSet_ne (fs : List (String × JSVal)) (k k' : String) (v : JSVal)
    (h : k' ≠ k) : objLookup (objSet fs k v) k' = objLookup fs k' := by
  induction fs with
  | nil =>
    simp only [objSet, objLookup]
    rw [if_neg (fun hc => h hc.symm)]
  | cons p rest ih =>
    obtain ⟨pk, pw⟩ := p
    by_cases h2 : pk = k
    · subst h2
      have h3 : ¬ pk = k' := fun hc => h (hc ▸ rfl)
      simp [objSet, objLookup, h3]
    · by_cases h4 : pk = k'
      · simp [objSet, objLookup, h2, h4, h]
      · simp [objSet, objLookup, h2, h4, h, ih]

/-- The declared path-bearing field names of every kind are distinct. -/
theorem pathPropsOf_keys_nodup (t : String) : ((pathPropsOf t).map Prod.fst).Nodup := by
  unfold pathPropsOf
  split <;> decide

/-- processStep does not change the name or type of the node. -/
theorem processStep_name_type (names : List String) (owner : String)
    (acc : NodeDef × List NodeDef) (pf : String × Bool) :
    (processStep names owner acc pf).1.name = acc.1.name ∧
    (processStep names owner acc pf).1.type = acc.1.type := by
  unfold processStep
  split <;> exact ⟨rfl, rfl⟩

/-- The literal-pass fold does not change the name or type of the node. -/
theorem processFold_name_type (names : List String) (owner : String) :
    ∀ (L : List (String × Bool)) (acc : NodeDef × List NodeDef),
      (L.foldl (processStep names owner) acc).1.name = acc.1.name ∧
      (L.foldl (processStep names owner) acc).1.type = acc.1.type := by
  intro L
  induction L with
  | nil => intro acc; exact ⟨rfl, rfl⟩
  | cons pf rest ih =>
    intro acc
    simp only [List.foldl_cons]
    rcases ih (processStep names owner acc pf) with ⟨h1, h2⟩
    rcases processStep_name_type names owner acc pf with ⟨h3, h4⟩
    exact ⟨h1.trans h3, h2.trans h4⟩

/-- processStep leaves every field other than the processed one unchanged. -/
theorem processStep_field_ne (names : List String) (owner : String)
    (acc : NodeDef × List NodeDef) (pf : String × Bool) (k : String) (hk : k ≠ pf.1) :
    getNodeField (processStep names owner acc pf).1 k = getNodeField acc.1 k := by
  unfold processStep
  split
  · unfold getNodeField
    rw [objLookup_objSet_ne _ _ _ _ hk]
  · rfl

/-- The literal-pass fold leaves fields it never touches unchanged. -/
theorem processFold_field_not_mem (names : List String) (owner : String) :
    ∀ (L : List (String × Bool)) (acc : NodeDef × List NodeDef) (k : String),
      k ∉ L.map Prod.fst →
      getNodeField (L.foldl (processStep names owner) acc).1 k = getNodeField acc.1 k := by
  intro L
  induction L with
  | nil => intro acc k _; rfl
  | cons pf rest ih =>
    intro acc k hk
    simp only [List.map_cons, List.mem_cons, not_or] at hk
    simp only [List.foldl_cons]
    rw [ih _ k hk.2, processStep_field_ne names owner acc pf k hk.1]

/-- After the literal pass, a truthy path-bearing field holds the rewritten
normalized entries of its original value. -/
theorem processFold_field_set (names : List String) (owner : String) :
    ∀ (L : List (String × Bool)) (acc : NodeDef × List NodeDef) (pf : String × Bool),
      pf ∈ L → (L.map Prod.fst).Nodup →
      truthy (getNodeField acc.1 pf.1) = true →
      getNodeField (L.foldl (processStep names owner) acc).1 pf.1
        = .obj (rewriteEntries names owner (normalizePathDef (getNodeField acc.1 pf.1))) := by
  intro L
  induction L with
  | nil => intro acc pf h; cases h
  | cons q rest ih =>
    intro acc pf hmem hnd htr
    simp only [List.foldl_cons]
    rcases List.mem_cons.mp hmem with heq | hmem2
    · subst heq
      have hk : pf.1 ∉ rest.map Prod.fst := by
        simp only [List.map_cons, List.nodup_cons] at hnd
        exact hnd.1
      rw [processFold_field_not_mem names owner rest _ _ hk]
      unfold processStep
      rw [if_pos htr]
      unfold getNodeField
      rw [objLookup_objSet_self]
      rfl
    · have hq : q.1 ∉ rest.map Prod.fst := by
        simp only [List.map_cons, List.nodup_cons] at hnd
        exact hnd.1
      have hne : pf.1 ≠ q.1 := by
        intro hc
        exact hq (hc ▸ List.mem_map_of_mem Prod.fst hmem2)
      have hrest : (rest.map Prod.fst).Nodup := by
        simp only [List.map_cons, List.nodup_cons] at hnd
        exact hnd.2
      have hfield := processStep_field_ne names owner acc q pf.1 hne
      rw [ih (processStep names owner acc q) pf hmem2 hrest (hfield ▸ htr), hfield]

/-- Collected literal nodes are only ever appended by the fold. -/
theorem processFold_lits_mono (names : List String) (owner : String) :
    ∀ (L : List (String × Bool)) (acc : NodeDef × List NodeDef) (x : NodeDef),
      x ∈ acc.2 → x ∈ (L.foldl (processStep names owner) acc).2 := by
  intro L
  induction L with
  | nil => intro acc x h; exact h
  | cons pf rest ih =>
    intro acc x h
    simp only [List.foldl_cons]
    refine ih _ x ?_
    unfold processStep
    split
    · exact List.mem_append_left _ h
    · exact h

/-- Every literal node synthesized for a processed truthy field ends up in
the collected literal list. -/
theorem processFold_lits_mem (names : List String) (owner : String) :
    ∀ (L : List (String × Bool)) (acc : NodeDef × List NodeDef) (pf : String × Bool),
      pf ∈ L → (L.map Prod.fst).Nodup →
      truthy (getNodeField acc.1 pf.1) = true →
      ∀ x ∈ literalNodesOf names owner (normalizePathDef (getNodeField acc.1 pf.1)),
        x ∈ (L.foldl (processStep names owner) acc).2 := by
  intro L
  induction L with
  | nil => intro acc pf h; cases h
  | cons q rest ih =>
    intro acc pf hmem hnd htr x hx
    simp only [List.foldl_cons]
    rcases List.mem_cons.mp hmem with heq | hmem2
    · subst heq
      refine processFold_lits_mono names owner rest _ x ?_
      unfold processStep
      rw [if_pos htr]
      exact List.mem_append_right _ hx
    · have hq : q.1 ∉ rest.map Prod.fst := by
        simp only [List.map_cons, List.nodup_cons] at hnd
        exact hnd.1
      have hne : pf.1 ≠ q.1 := by
        intro hc
        exact hq (hc ▸ List.mem_map_of_mem Prod.fst hmem2)
      have hrest : (rest.map Prod.fst).Nodup := by
        simp only [List.map_cons, List.nodup_cons] at hnd
        exact hnd.2
      have hfield := processStep_field_ne names owner acc q pf.1 hne
      exact ih (processStep names owner acc q) pf hmem2 hrest (hfield ▸ htr) x (hfield ▸ hx)

/-- processNodeDef keeps the node name and type. -/
theorem processNodeDef_name_type (names : List String) (nd : NodeDef) :
    (processNodeDef names nd).1.name = nd.name ∧ (processNodeDef names nd).1.type = nd.type := by
  have h := processFold_name_type names nd.name (pathPropsOf nd.type) (nd, [])
  try dsimp only at h
  unfold processNodeDef
  exact h

/-- processNodeDef rewrites a truthy path-bearing field to its processed
entries. -/
theorem processNodeDef_field (names : List String) (nd : NodeDef) (pf : String × Bool)
    (hpf : pf ∈ pathPropsOf nd.type) (htr : truthy (getNodeField nd pf.1) = true) :
    getNodeField (processNodeDef names nd).1 pf.1
      = .obj (rewriteEntries names nd.name (normalizePathDef (getNodeField nd pf.1))) := by
  have h := processFold_field_set names nd.name (pathPropsOf nd.type) (nd, []) pf hpf
    (pathPropsOf_keys_nodup nd.type) htr
  try dsimp only at h
  unfold processNodeDef
  exact h

/-- processNodeDef collects every literal node of a truthy path-bearing
field. -/
theorem processNodeDef_lits (names : List String) (nd : NodeDef) (pf : String × Bool)
    (hpf : pf ∈ pathPropsOf nd.type) (htr : truthy (getNodeField nd pf.1) = true)
    (x : NodeDef)
    (hx : x ∈ literalNodesOf names nd.name (normalizePathDef (getNodeField nd pf.1))) :
    x ∈ (processNodeDef names nd).2 := by
  have h := processFold_lits_mem names nd.name (pathPropsOf nd.type) (nd, []) pf hpf
    (pathPropsOf_keys_nodup nd.type) htr x hx
  try dsimp only at h
  unfold processNodeDef
  exact h

/-- C2 counterexample: an alias whose mirror field is the empty string. The
empty string is falsy, so the preprocessor skips the field entirely, even
though its normalized form has the entry mapping the empty key to the empty
string, which is not a node reference; no literal node is synthesized and
the field is not rewritten, contrary to the claim. -/
theorem c2_counterexample :
    truthy (getNodeField (⟨"a", "alias", [("mirror", JSVal.str "")]⟩ : NodeDef) "mirror")
      = false ∧
    normalizePathDef (getNodeField (⟨"a", "alias", [("mirror", JSVal.str "")]⟩ : NodeDef) "mirror")
      = [("", JSVal.str "")] ∧
    isNodeRef ((withAliasesAndInputs [⟨"a", "alias", [("mirror", JSVal.str "")]⟩]).map
      (fun n => n.name)) (JSVal.str "") = false ∧
    preprocessGraphDef [⟨"a", "alias", [("mirror", JSVal.str "")]⟩]
      = [⟨"a", "alias", [("mirror", JSVal.str "")]⟩, inputsNodeDef] ∧
    (∀ nd ∈ preprocessGraphDef [⟨"a", "alias", [("mirror", JSVal.str "")]⟩],
      nd.name ≠ litNodeName "a" "") := by
  decide

/-- C2 amended: during preprocessing, for every declared node (after alias
expansion and inputs injection), for every path-bearing field of its kind
whose raw value is truthy, and for every entry of the normalized field: a
non-reference entry yields a static literal node in the output definition
and the entry is rewritten to reference it, while a reference entry is kept
as-is; a falsy raw field value (absent, empty string, zero, null or false)
is skipped entirely and left unrewritten. -/
theorem mem_preprocess_node {d : List NodeDef} {nd : NodeDef}
    (h : nd ∈ withAliasesAndInputs d) :
    (processNodeDef ((withAliasesAndInputs d).map (fun n => n.name)) nd).1
      ∈ preprocessGraphDef d := by
  unfold preprocessGraphDef
  exact List.mem_append_left _ (List.mem_map_of_mem
    (fun nd => (processNodeDef ((withAliasesAndInputs d).map (fun n => n.name)) nd).1) h)

theorem mem_preprocess_lit {d : List NodeDef} {nd x : NodeDef}
    (h : nd ∈ withAliasesAndInputs d)
    (hx : x ∈ (processNodeDef ((withAliasesAndInputs d).map (fun n => n.name)) nd).2) :
    x ∈ preprocessGraphDef d := by
  unfold preprocessGraphDef
  refine List.mem_append_right _ ?_
  rw [List.mem_flatMap]
  exact ⟨nd, h, hx⟩

/-- C2 amended: during preprocessing, for every declared node (after alias
expansion and inputs injection), for every path-bearing field of its kind
whose raw value is truthy, and for every entry of the normalized field: a
non-reference entry yields a static literal node in the output definition
and the entry is rewritten to reference it, while a reference entry is kept
as-is; a falsy raw field value (absent, empty string, zero, null or false)
is skipped entirely and left unrewritten. -/
theorem c2_literal_hoisting (d : List NodeDef)
    (_hk : ∀ n ∈ d, knownNodeType n.type = true)
    (nd : NodeDef) (hnd : nd ∈ withAliasesAndInputs d)
    (pf : String × Bool) (hpf : pf ∈ pathPropsOf nd.type)
    (htr : truthy (getNodeField nd pf.1) = true)
    (kv : String × JSVal) (hkv : kv ∈ normalizePathDef (getNodeField nd pf.1)) :
    (isNodeRef ((withAliasesAndInputs d).map (fun n => n.name)) kv.2 = false →
      (⟨litNodeName nd.name kv.1, "static", [("value", kv.2)]⟩ : NodeDef)
          ∈ preprocessGraphDef d ∧
      ∃ nd2, nd2 ∈ preprocessGraphDef d ∧ nd2.name = nd.name ∧ nd2.type = nd.type ∧
        ∃ es, getNodeField nd2 pf.1 = .obj es ∧
          (kv.1, JSVal.str (litNodeName nd.name kv.1)) ∈ es) ∧
    (isNodeRef ((withAliasesAndInputs d).map (fun n => n.name)) kv.2 = true →
      ∃ nd2, nd2 ∈ preprocessGraphDef d ∧ nd2.name = nd.name ∧ nd2.type = nd.type ∧
        ∃ es, getNodeField nd2 pf.1 = .obj es ∧ kv ∈ es) := by
  have hname := processNodeDef_name_type ((withAliasesAndInputs d).map (fun n => n.name)) nd
  have hfield := processNodeDef_field ((withAliasesAndInputs d).map (fun n => n.name)) nd pf
    hpf htr
  constructor
  · intro href
    have hx : (⟨litNodeName nd.name kv.1, "static", [("value", kv.2)]⟩ : NodeDef)
        ∈ literalNodesOf ((withAliasesAndInputs d).map (fun n => n.name)) nd.name
          (normalizePathDef (getNodeField nd pf.1)) := by
      unfold literalNodesOf
      rw [List.mem_filterMap]
      refine ⟨kv, hkv, ?_⟩
      rw [href]
      rfl
    have hmem2 : (kv.1, JSVal.str (litNodeName nd.name kv.1))
        ∈ rewriteEntries ((withAliasesAndInputs d).map (fun n => n.name)) nd.name
          (normalizePathDef (getNodeField nd pf.1)) := by
      unfold rewriteEntries
      rw [List.mem_map]
      refine ⟨kv, hkv, ?_⟩
      rw [href]
      rfl
    exact ⟨mem_preprocess_lit hnd
        (processNodeDef_lits ((withAliasesAndInputs d).map (fun n => n.name)) nd pf hpf htr _ hx),
      _, mem_preprocess_node hnd, hname.1, hname.2, _, hfield, hmem2⟩
  · intro href
    have hmem2 : kv
        ∈ rewriteEntries ((withAliasesAndInputs d).map (fun n => n.name)) nd.name
          (normalizePathDef (getNodeField nd pf.1)) := by
      unfold rewriteEntries
      rw [List.mem_map]
      refine ⟨kv, hkv, ?_⟩
      rw [href]
      rfl
    exact ⟨_, mem_preprocess_node hnd, hname.1, hname.2, _, hfield, hmem2⟩

/-- C2 witness: the amended theorem applied to the literal-inference
scenario, hoisting the numeric literal 3 of the factor parameter. -/
theorem c2_literal_hoisting_witness :
    (⟨litNodeName "t" "factor", "static", [("value", JSVal.num 3)]⟩ : NodeDef)
        ∈ preprocessGraphDef exampleTransformDef ∧
    ∃ nd2, nd2 ∈ preprocessGraphDef exampleTransformDef ∧
      nd2.name = "t" ∧ nd2.type = "transform" ∧
      ∃ es, getNodeField nd2 "params" = .obj es ∧
        ("factor", JSVal.str (litNodeName "t" "factor")) ∈ es :=
  (c2_literal_hoisting exampleTransformDef (by decide)
    ⟨"t", "transform",
      [("fn", JSVal.str "mult"),
       ("params", JSVal.obj [("amt", JSVal.str "inputs.x"), ("factor", JSVal.num 3)])]⟩
    (by decide) ("params", true) (by decide) (by decide)
    ("factor", JSVal.num 3) (by decide)).1 (by decide)

/-- Keys after an objSet assignment: the old keys plus the assigned key. -/
theorem mem_map_fst_objSet {fs : List (String × JSVal)} {k a : String} {v : JSVal} :
    a ∈ (objSet fs k v).map Prod.fst ↔ a ∈ fs.map Prod.fst ∨ a = k := by
  induction fs with
  | nil => simp [objSet]
  | cons p rest ih =>
    obtain ⟨pk, pv⟩ := p
    by_cases h : pk = k <;> simp [objSet, h, ih] <;> tauto

/-- Auxiliary induction for the getState fold: a name that starts with a
hash mark is never added when echoIntermediates is off. -/
theorem getState_foldl_hash_not_mem (o : DOptions) (hI : o.echoIntermediates = false)
    (name : String) (hs : startsWithHash name = true) :
    ∀ (nodes : List MNode) (acc : List (String × JSVal)), name ∉ acc.map Prod.fst →
      name ∉ (nodes.foldl
        (fun acc n =>
          if isVisibleInGraphState o n || false then objSet acc n.name n.value else acc)
        acc).map Prod.fst := by
  intro nodes
  induction nodes with
  | nil => intro acc hacc; simpa using hacc
  | cons n rest ih =>
    intro acc hacc
    simp only [List.foldl_cons]
    by_cases hv : (isVisibleInGraphState o n || false) = true
    · rw [if_pos hv]
      refine ih _ ?_
      rw [mem_map_fst_objSet]
      rintro (h | h)
      · exact hacc h
      · rw [h] at hs
        simp [isVisibleInGraphState, hs, hI] at hv
    · rw [if_neg hv]
      exact ih acc hacc

/-- C6 counterexample: with the echoIntermediates option set, a node whose
name begins with a hash mark does appear among the keys of getState with
includeInvisible false, so the claim does not hold for every options record. -/
theorem c6_counterexample :
    startsWithHash "#hidden" = true ∧
    "#hidden" ∈ (getState ⟨false, false, true⟩
      [⟨"#hidden", false, false, false, JSVal.num 1⟩] false).map Prod.fst := by
  decide

/-- C6 amended: for every graph whose options leave echoIntermediates unset,
a node whose name begins with a hash mark never appears among the keys of
getState with includeInvisible false. -/
theorem c6_hash_nodes_hidden (o : DOptions) (hI : o.echoIntermediates = false)
    (nodes : List MNode) (name : String) (hs : startsWithHash name = true) :
    name ∉ (getState o nodes false).map Prod.fst := by
  unfold getState
  exact getState_foldl_hash_not_mem o hI name hs nodes [] (by simp)

/-- C6 witness: the amended theorem applied at a concrete graph. -/
theorem c6_hash_nodes_hidden_witness :
    (⟨false, false, false⟩ : DOptions).echoIntermediates = false ∧
    startsWithHash "#w" = true ∧
    "#w" ∉ (getState ⟨false, false, false⟩
      [⟨"#w", false, false, false, JSVal.num 1⟩, ⟨"plain", false, false, false, JSVal.num 2⟩]
      false).map Prod.fst :=
  ⟨rfl, by decide, c6_hash_nodes_hidden ⟨false, false, false⟩ rfl _ "#w" (by decide)⟩

/-- C9 counterexample: reading a value through getGraphValueAt with a node
id that names no node does not return absent; the method logs and then
crashes with a TypeError when it dereferences the undefined lookup result. -/
theorem c9_counterexample :
    getGraphValueAtM [] "ghost" = .error "TypeError: cannot read properties of undefined" ∧
    ∀ v, getGraphValueAtM [] "ghost" ≠ .ok v := by
  refine ⟨rfl, ?_⟩
  intro v h
  have h0 : getGraphValueAtM [] "ghost"
      = Except.error "TypeError: cannot read properties of undefined" := rfl
  rw [h0] at h
  cases h

/-- C9 amended: whenever the node id of the requested path names no node in
the enclosing graph, getGraphValueAt logs and then raises a TypeError
instead of returning absent. -/
theorem c9_missing_node_raises (g : List (String × JSVal)) (p : String)
    (h : objLookup g (srcFromPath p).nodeId = none) :
    getGraphValueAtM g p = .error "TypeError: cannot read properties of undefined" := by
  simp [getGraphValueAtM, h]

/-- C9 witness: the amended theorem applied at a concrete graph and path. -/
theorem c9_missing_node_raises_witness :
    objLookup [("other", JSVal.num 1)] (srcFromPath "ghost.x").nodeId = none ∧
    getGraphValueAtM [("other", JSVal.num 1)] "ghost.x"
      = .error "TypeError: cannot read properties of undefined" :=
  ⟨by decide, c9_missing_node_raises [("other", JSVal.num 1)] "ghost.x" (by decide)⟩

/-- C10: a listener registered through once runs again on a second trigger.
The wrapper calls removeListener with the wrapped function, but only the
wrapper itself was ever stored, so nothing is removed: triggering the event
twice invokes listener 7 twice, contradicting at-most-once delivery. -/
theorem c10_once_fires_twice :
    (trigger (onceListener [] "evt" 7) "evt").2 = [7] ∧
    (trigger (trigger (onceListener [] "evt" 7) "evt").1 "evt").2 = [7] ∧
    (trigger (trigger (onceListener [] "evt" 7) "evt").1 "evt").1
      = [("evt", [Listener.wrapper "evt" 7])] := by
  decide

/-- C4: on the claimed concrete branch example (test z, cases a, b and the
default marker, node names nodeA, nodeB, nodeC with static values), reading
the branch value does not produce the value of nodeC: the switch calls
Array.prototype.findIndex with the default-marker string instead of a
predicate, which throws a TypeError before any case is compared. -/
theorem c4_branch_default_throws :
    branchValue [("nodeA", JSVal.str "A"), ("nodeB", JSVal.str "B"), ("nodeC", JSVal.str "C")]
      (JSVal.str "z")
      [JSVal.str "a", JSVal.str "b", JSVal.str "_default_"]
      [JSVal.str "nodeA", JSVal.str "nodeB", JSVal.str "nodeC"]
      = .error "TypeError: predicate is not a function" ∧
    getGraphValueAtM
      [("nodeA", JSVal.str "A"), ("nodeB", JSVal.str "B"), ("nodeC", JSVal.str "C")]
      "nodeC" = .ok (JSVal.str "C") := by
  decide

/-- C5 counterexample: with obj holding field a with value 0 and key holding
the string a, both parents resolve and the lookup yields the concrete value
0, yet the dereference node produces null rather than 0, because the source
tests the looked-up value for truthiness rather than for absence. -/
theorem c5_counterexample :
    getGraphValueAtM [("obj", JSVal.obj [("a", JSVal.num 0)]), ("key", JSVal.str "a")] "obj"
      = .ok (JSVal.obj [("a", JSVal.num 0)]) ∧
    getGraphValueAtM [("obj", JSVal.obj [("a", JSVal.num 0)]), ("key", JSVal.str "a")] "key"
      = .ok (JSVal.str "a") ∧
    jsGet (JSVal.obj [("a", JSVal.num 0)]) (jsKeyOfVal (JSVal.str "a")) = JSVal.num 0 ∧
    derefValue [("obj", JSVal.obj [("a", JSVal.num 0)]), ("key", JSVal.str "a")] "obj" "key"
      = .ok JSVal.null ∧
    JSVal.null ≠ JSVal.num 0 := by
  decide

/-- C5 amended: once both referenced nodes exist, the dereference value is
object[propName] when that lookup yields a truthy value, null when it yields
absent or any falsy value, and absent while either parent is absent; a
missing referenced node is an error. -/
theorem c5_dereference (g : List (String × JSVal)) (op pp : String) :
    (∀ ov pv, getGraphValueAtM g op = .ok ov → getGraphValueAtM g pp = .ok pv →
      derefValue g op pp = .ok (
        if ov = JSVal.undef ∨ pv = JSVal.undef then JSVal.undef
        else if truthy (jsGet ov (jsKeyOfVal pv)) then jsGet ov (jsKeyOfVal pv)
        else JSVal.null)) ∧
    (objLookup g (srcFromPath op).nodeId = none →
      derefValue g op pp = .error "No object node found in graph.") ∧
    ((objLookup g (srcFromPath op).nodeId).isSome = true →
      objLookup g (srcFromPath pp).nodeId = none →
      derefValue g op pp = .error "No propName node found in graph.") := by
  refine ⟨?_, ?_, ?_⟩
  · intro ov pv ho hp
    have hLo : (objLookup g (srcFromPath op).nodeId).isNone = false := by
      cases hL : objLookup g (srcFromPath op).nodeId with
      | none => rw [getGraphValueAtM, hL] at ho; cases ho
      | some _ => rfl
    have hLp : (objLookup g (srcFromPath pp).nodeId).isNone = false := by
      cases hL : objLookup g (srcFromPath pp).nodeId with
      | none => rw [getGraphValueAtM, hL] at hp; cases hp
      | some _ => rfl
    rw [derefValue, hLo, hLp]
    simp only [Bool.false_eq_true, if_false, ho, hp, bind, Except.bind]
    by_cases hu : ov = JSVal.undef ∨ pv = JSVal.undef
    · simp [hu, pure, Except.pure]
    · simp [hu, pure, Except.pure]
  · intro h
    rw [derefValue, h]
    rfl
  · intro h1 h2
    cases hL : objLookup g (srcFromPath op).nodeId with
    | none => rw [hL] at h1; cases h1
    | some _ =>
      rw [derefValue, hL, h2]
      rfl

/-- C5 witness: the amended theorem applied at a concrete graph in which the
lookup succeeds with a truthy value. -/
theorem c5_dereference_witness :
    derefValue [("o", JSVal.obj [("b", JSVal.num 1)]), ("k", JSVal.str "b")] "o" "k"
      = .ok (JSVal.num 1) ∧
    derefValue [("k", JSVal.str "b")] "o" "k" = .error "No object node found in graph." := by
  constructor
  · have h := (c5_dereference
      [("o", JSVal.obj [("b", JSVal.num 1)]), ("k", JSVal.str "b")] "o" "k").1
      (JSVal.obj [("b", JSVal.num 1)]) (JSVal.str "b") (by decide) (by decide)
    exact h.trans (by decide)
  · exact (c5_dereference [("k", JSVal.str "b")] "o" "k").2.1 (by decide)

/-- C1: when the resolved inputs of a map-mode subgraph node hold a sequence
under collection, the node's value is a sequence of the same length whose
i-th element is the state of a fresh child graph run with inputs made of
item bound to the i-th collection element plus the remaining inputs, in
order; and when collection resolves to anything that is not a sequence,
evaluation fails with an error. -/
theorem c1_map_mode (runChild : List (String × JSVal) → JSVal)
    (args : List (String × JSVal)) :
    (∀ xs, objGetD args "collection" = JSVal.arr xs →
      ∃ ys, runAsMapStep runChild args = .ok (JSVal.arr ys) ∧
        ys.length = xs.length ∧
        ∀ i : Nat, ys[i]? = (xs[i]?).map (fun x =>
          runChild (objLit (("item", x) :: objOmit args "collection")))) ∧
    (∀ v, objGetD args "collection" = v → isArrayJS v = false →
      ∃ e, runAsMapStep runChild args = .error e) := by
  constructor
  · intro xs hxs
    refine ⟨xs.map (fun x => runChild (objLit (("item", x) :: objOmit args "collection"))),
      ?_, ?_, ?_⟩
    · simp only [runAsMapStep, hxs]
    · simp
    · intro i
      simp
  · intro v hv hna
    refine ⟨?_, ?_⟩
    · exact "collectionMode map requires an input named collection that resolves to a single array."
    · cases v with
      | arr xs => simp [isArrayJS] at hna
      | undef => simp only [runAsMapStep, hv]
      | null => simp only [runAsMapStep, hv]
      | bool b => simp only [runAsMapStep, hv]
      | num n => simp only [runAsMapStep, hv]
      | str s => simp only [runAsMapStep, hv]
      | obj fs => simp only [runAsMapStep, hv]

/-- C1 witness: the theorem applied at a concrete argument record, both for
a two-element collection and for a null collection. -/
theorem c1_map_mode_witness :
    (∃ ys, runAsMapStep (fun inp => objGetD inp "item")
        [("collection", JSVal.arr [JSVal.num 2, JSVal.num 3]), ("factor", JSVal.num 5)]
        = .ok (JSVal.arr ys) ∧
      ys.length = [JSVal.num 2, JSVal.num 3].length ∧
      ∀ i : Nat, ys[i]? = ([JSVal.num 2, JSVal.num 3][i]?).map (fun x =>
        (fun inp => objGetD inp "item")
          (objLit (("item", x) :: objOmit
            [("collection", JSVal.arr [JSVal.num 2, JSVal.num 3]), ("factor", JSVal.num 5)]
            "collection")))) ∧
    (∃ e, runAsMapStep (fun inp => objGetD inp "item")
        [("collection", JSVal.null)] = .error e) :=
  ⟨(c1_map_mode (fun inp => objGetD inp "item")
      [("collection", JSVal.arr [JSVal.num 2, JSVal.num 3]), ("factor", JSVal.num 5)]).1
      [JSVal.num 2, JSVal.num 3] rfl,
   (c1_map_mode (fun inp => objGetD inp "item")
      [("collection", JSVal.null)]).2 JSVal.null rfl rfl⟩

/-- Membership in the uniq accumulator loop. -/
theorem mem_uniqJSAux {α : Type} [DecidableEq α] :
    ∀ (l seen : List α) (a : α), a ∈ uniqJSAux seen l ↔ a ∈ l ∧ a ∉ seen := by
  intro l
  induction l with
  | nil => intro seen a; simp [uniqJSAux]
  | cons x xs ih =>
    intro seen a
    by_cases hx : x ∈ seen
    · rw [uniqJSAux, if_pos hx, ih]
      constructor
      · rintro ⟨h1, h2⟩
        exact ⟨List.mem_cons_of_mem x h1, h2⟩
      · rintro ⟨h1, h2⟩
        rcases List.mem_cons.mp h1 with rfl | h3
        · exact absurd hx h2
        · exact ⟨h3, h2⟩
    · rw [uniqJSAux, if_neg hx]
      constructor
      · intro h
        rcases List.mem_cons.mp h with rfl | h2
        · exact ⟨List.mem_cons_self _ _, hx⟩
        · rw [ih] at h2
          rcases h2 with ⟨h3, h4⟩
          simp only [List.mem_cons, not_or] at h4
          exact ⟨List.mem_cons_of_mem x h3, h4.2⟩
      · rintro ⟨h1, h2⟩
        rcases List.mem_cons.mp h1 with rfl | h3
        · exact List.mem_cons_self _ _
        · by_cases hax : a = x
          · subst hax
            exact List.mem_cons_self _ _
          · refine List.mem_cons_of_mem _ ?_
            rw [ih]
            exact ⟨h3, by simp [List.mem_cons, hax, h2]⟩

/-- lodash uniq keeps exactly the members of its argument. -/
theorem mem_uniqJS {α : Type} [DecidableEq α] (l : List α) (a : α) :
    a ∈ uniqJS l ↔ a ∈ l := by
  unfold uniqJS
  rw [mem_uniqJSAux]
  simp

/-- An expected input name arises exactly from a normalized path-bearing
entry whose string value begins with the inputs prefix. -/
theorem mem_collectExpectedInputNames (d : List NodeDef) (n : String) :
    n ∈ collectExpectedInputNames d ↔
      ∃ nd ∈ d, ∃ pf ∈ pathPropsOf nd.type,
        ∃ kv ∈ normalizePathDef (getNodeField nd pf.1), ∃ s,
          kv.2 = JSVal.str s ∧ startsWithStr "inputs." s = true ∧
          firstSegJS (dropFirstSeg s) = n := by
  unfold collectExpectedInputNames collectExpectedInputPaths
  rw [List.mem_map]
  constructor
  · rintro ⟨path, hpath, rfl⟩
    rw [mem_uniqJS, List.mem_flatMap] at hpath
    obtain ⟨nd, hnd, hpath⟩ := hpath
    rw [List.mem_flatMap] at hpath
    obtain ⟨pf, hpf, hpath⟩ := hpath
    rw [List.mem_filterMap] at hpath
    obtain ⟨kv, hkv, hf⟩ := hpath
    rcases hv : kv.2 with _ | _ | b | m | s | xs | fs <;> rw [hv] at hf <;> try cases hf
    dsimp only at hf
    split at hf
    · cases hf
      refine ⟨nd, hnd, pf, hpf, kv, hkv, s, hv, ?_, rfl⟩
      assumption
    · cases hf
  · rintro ⟨nd, hnd, pf, hpf, kv, hkv, s, hs2, hsw, hfs⟩
    refine ⟨dropFirstSeg s, ?_, hfs⟩
    rw [mem_uniqJS, List.mem_flatMap]
    refine ⟨nd, hnd, ?_⟩
    rw [List.mem_flatMap]
    refine ⟨pf, hpf, ?_⟩
    rw [List.mem_filterMap]
    refine ⟨kv, hkv, ?_⟩
    rw [hs2]
    simp only [hsw, if_pos]

/-- A name is missing exactly when it is expected and not supplied. -/
theorem mem_runMissingInputs (d : List NodeDef) (inputKeys : List String) (n : String) :
    n ∈ runMissingInputs d inputKeys ↔
      n ∈ collectExpectedInputNames d ∧ n ∉ inputKeys := by
  unfold runMissingInputs
  rw [List.mem_filter, mem_uniqJS]
  constructor
  · rintro ⟨h1, h2⟩
    refine ⟨h1, ?_⟩
    simpa using h2
  · rintro ⟨h1, h2⟩
    refine ⟨h1, ?_⟩
    simpa using h2

/-- C8: run throws an error naming the missing inputs exactly when some
expected top-level input name, namely the first segment after the inputs
prefix of some normalized path-bearing field value beginning with that
prefix on some declared node, is not among the keys of the supplied inputs;
otherwise the gate passes and run proceeds to write the inputs and start
the driver. -/
theorem c8_run_input_gate (d : List NodeDef) (inputKeys : List String)
    (_hk : ∀ n ∈ d, knownNodeType n.type = true) :
    ((runGate d inputKeys).isSome = true ↔
      ∃ nd ∈ d, ∃ pf ∈ pathPropsOf nd.type,
        ∃ kv ∈ normalizePathDef (getNodeField nd pf.1), ∃ s,
          kv.2 = JSVal.str s ∧ startsWithStr "inputs." s = true ∧
          firstSegJS (dropFirstSeg s) ∉ inputKeys) ∧
    (∀ l, runGate d inputKeys = some l → ∀ n, n ∈ l ↔
      ((∃ nd ∈ d, ∃ pf ∈ pathPropsOf nd.type,
        ∃ kv ∈ normalizePathDef (getNodeField nd pf.1), ∃ s,
          kv.2 = JSVal.str s ∧ startsWithStr "inputs." s = true ∧
          firstSegJS (dropFirstSeg s) = n) ∧ n ∉ inputKeys)) := by
  have hmiss : ∀ n, n ∈ runMissingInputs d inputKeys ↔
      ((∃ nd ∈ d, ∃ pf ∈ pathPropsOf nd.type,
        ∃ kv ∈ normalizePathDef (getNodeField nd pf.1), ∃ s,
          kv.2 = JSVal.str s ∧ startsWithStr "inputs." s = true ∧
          firstSegJS (dropFirstSeg s) = n) ∧ n ∉ inputKeys) := by
    intro n
    rw [mem_runMissingInputs, mem_collectExpectedInputNames]
  constructor
  · unfold runGate
    by_cases hE : (runMissingInputs d inputKeys).isEmpty = true
    · rw [if_pos hE]
      simp only [Option.isSome_none, Bool.false_eq_true, false_iff]
      rintro ⟨nd, hnd, pf, hpf, kv, hkv, s, h1, h2, h3⟩
      have hn : firstSegJS (dropFirstSeg s) ∈ runMissingInputs d inputKeys :=
        (hmiss _).mpr ⟨⟨nd, hnd, pf, hpf, kv, hkv, s, h1, h2, rfl⟩, h3⟩
      rw [List.isEmpty_iff] at hE
      rw [hE] at hn
      cases hn
    · rw [if_neg hE]
      simp only [Option.isSome_some, true_iff]
      have hne : runMissingInputs d inputKeys ≠ [] := by
        intro hc
        rw [hc] at hE
        exact hE rfl
      obtain ⟨n, hn⟩ := List.exists_mem_of_ne_nil _ hne
      obtain ⟨⟨nd, hnd, pf, hpf, kv, hkv, s, h1, h2, h3⟩, h4⟩ := (hmiss n).mp hn
      exact ⟨nd, hnd, pf, hpf, kv, hkv, s, h1, h2, h3 ▸ h4⟩
  · intro l hl n
    unfold runGate at hl
    by_cases hE : (runMissingInputs d inputKeys).isEmpty = true
    · rw [if_pos hE] at hl
      cases hl
    · rw [if_neg hE] at hl
      cases hl
      rw [mem_uniqJS]
      exact hmiss n

/-- C8 witness: the gate applied to the literal-inference scenario, which
expects the top-level input x: it passes when x is supplied and fails
naming x when it is not. -/
theorem c8_run_input_gate_witness :
    ((runGate exampleTransformDef ["y"]).isSome = true ↔
      ∃ nd ∈ exampleTransformDef, ∃ pf ∈ pathPropsOf nd.type,
        ∃ kv ∈ normalizePathDef (getNodeField nd pf.1), ∃ s,
          kv.2 = JSVal.str s ∧ startsWithStr "inputs." s = true ∧
          firstSegJS (dropFirstSeg s) ∉ (["y"] : List String)) ∧
    (∀ l, runGate exampleTransformDef ["y"] = some l → ∀ n, n ∈ l ↔
      ((∃ nd ∈ exampleTransformDef, ∃ pf ∈ pathPropsOf nd.type,
        ∃ kv ∈ normalizePathDef (getNodeField nd pf.1), ∃ s,
          kv.2 = JSVal.str s ∧ startsWithStr "inputs." s = true ∧
          firstSegJS (dropFirstSeg s) = n) ∧ n ∉ (["y"] : List String))) :=
  c8_run_input_gate exampleTransformDef ["y"] (by decide)

/-- joinDots on a cons with a nonempty tail inserts a dot. -/
theorem joinDots_cons_cons (s : List Char) (t : List (List Char)) (ht : t ≠ []) :
    joinDots (s :: t) = s ++ '.' :: joinDots t := by
  match t with
  | [] => exact absurd rfl ht
  | u :: us => rfl

/-- digitVal inverts digitChar below ten. -/
theorem digitVal_digitChar (d : Nat) (h : d < 10) : digitVal (digitChar d) = d := by
  interval_cases d <;> rfl

/-- digitChar lands in the digit set below ten. -/
theorem isDigitChar_digitChar (d : Nat) (h : d < 10) : isDigitChar (digitChar d) = true := by
  interval_cases d <;> rfl

/-- digitChar of a positive digit is not the zero character. -/
theorem digitChar_ne_zero (d : Nat) (h1 : 1 ≤ d) (h : d < 10) : digitChar d ≠ '0' := by
  interval_cases d <;> decide

/-- The digit characters are none of the path metacharacters. -/
theorem digit_not_special (c : Char) (h : isDigitChar c = true) :
    c ≠ '.' ∧ c ≠ '$' ∧ c ≠ '*' := by
  have hm : c ∈ ['0', '1', '2', '3', '4', '5', '6', '7', '8', '9'] := List.elem_iff.mp h
  fin_cases hm <;> exact ⟨by decide, by decide, by decide⟩

/-- The little-endian digit expansion evaluates back to its number whenever
enough fuel is supplied. -/
theorem natToRevChars_val : ∀ fuel n, n ≤ fuel →
    List.foldr (fun c acc => acc * 10 + digitVal c) 0 (natToRevChars (fuel + 1) n) = n := by
  intro fuel
  induction fuel with
  | zero =>
    intro n hn
    have h0 : n = 0 := by omega
    subst h0
    rfl
  | succ fuel ih =>
    intro n hn
    show List.foldr _ 0 (natToRevChars (fuel + 1 + 1) n) = n
    rw [natToRevChars]
    by_cases h : n < 10
    · rw [if_pos h]
      simp [digitVal_digitChar n h]
    · rw [if_neg h]
      simp only [List.foldr_cons]
      have hdiv : n / 10 ≤ fuel := by
        have := Nat.div_lt_self (by omega : 0 < n) (by omega : 1 < 10)
        omega
      rw [ih (n / 10) hdiv]
      rw [digitVal_digitChar (n % 10) (Nat.mod_lt n (by omega))]
      omega

/-- Every character the digit expansion emits is a digit. -/
theorem natToRevChars_digits : ∀ fuel n c, c ∈ natToRevChars fuel n → isDigitChar c = true := by
  intro fuel
  induction fuel with
  | zero => intro n c hc; cases hc
  | succ fuel ih =>
    intro n c hc
    rw [natToRevChars] at hc
    by_cases h : n < 10
    · rw [if_pos h] at hc
      rcases List.mem_cons.mp hc with h1 | h1
      · exact h1 ▸ isDigitChar_digitChar n h
      · cases h1
    · rw [if_neg h] at hc
      rcases List.mem_cons.mp hc with h1 | h1
      · exact h1 ▸ isDigitChar_digitChar (n % 10) (Nat.mod_lt n (by omega))
      · exact ih (n / 10) c h1

/-- The digit expansion is never empty when fuel is positive. -/
theorem natToRevChars_ne_nil (fuel n : Nat) : natToRevChars (fuel + 1) n ≠ [] := by
  rw [natToRevChars]
  by_cases h : n < 10
  · rw [if_pos h]; exact List.cons_ne_nil _ _
  · rw [if_neg h]; exact List.cons_ne_nil _ _

/-- The most significant digit of a positive number is positive. -/
theorem natToRevChars_getLast : ∀ fuel n, 1 ≤ n → n ≤ fuel →
    ∃ d, 1 ≤ d ∧ d < 10 ∧ (natToRevChars (fuel + 1) n).getLast? = some (digitChar d) := by
  intro fuel
  induction fuel with
  | zero => intro n h1 h2; omega
  | succ fuel ih =>
    intro n h1 h2
    show ∃ d, _ ∧ _ ∧ (natToRevChars (fuel + 1 + 1) n).getLast? = _
    rw [natToRevChars]
    by_cases h : n < 10
    · rw [if_pos h]
      exact ⟨n, h1, h, rfl⟩
    · rw [if_neg h]
      have hdiv1 : 1 ≤ n / 10 := by
        have h10 : 10 / 10 ≤ n / 10 := Nat.div_le_div_right (by omega : 10 ≤ n)
        simpa using h10
      have hdiv : n / 10 ≤ fuel := by
        have := Nat.div_lt_self (by omega : 0 < n) (by omega : 1 < 10)
        omega
      obtain ⟨d, hd1, hd2, hd3⟩ := ih (n / 10) hdiv1 hdiv
      refine ⟨d, hd1, hd2, ?_⟩
      rcases hrec : natToRevChars (fuel + 1) (n / 10) with _ | ⟨r, rs⟩
      · exact absurd hrec (natToRevChars_ne_nil fuel (n / 10))
      · rw [hrec] at hd3
        rw [List.getLast?_cons_cons]
        exact hd3

/-- Parsing a reversed digit list is the little-endian fold. -/
theorem parseDigitsVal_reverse (l : List Char) :
    parseDigitsVal l.reverse = List.foldr (fun c acc => acc * 10 + digitVal c) 0 l := by
  rw [parseDigitsVal, List.foldl_reverse]

/-- The canonical decimal string of n names exactly the array index n. -/
theorem arrayIndexKey_natToKey (n : Nat) : arrayIndexKey? (natToKey n).toList = some n := by
  by_cases h0 : n = 0
  · subst h0; decide
  · have hlist : (natToKey n).toList = (natToRevChars (n + 1) n).reverse := rfl
    rw [hlist]
    have hne : natToRevChars (n + 1) n ≠ [] := natToRevChars_ne_nil n n
    obtain ⟨d, hd1, hd2, hd3⟩ := natToRevChars_getLast n n (by omega) (le_refl n)
    have hcond : (!(natToRevChars (n + 1) n).reverse.isEmpty &&
        (natToRevChars (n + 1) n).reverse.all isDigitChar &&
        ((natToRevChars (n + 1) n).reverse == ['0'] ||
          (natToRevChars (n + 1) n).reverse.head? != some '0')) = true := by
      simp only [Bool.and_eq_true, Bool.or_eq_true, Bool.not_eq_true']
      refine ⟨⟨?_, ?_⟩, Or.inr ?_⟩
      · rw [← Bool.not_eq_true]
        intro hc
        exact hne (List.reverse_eq_nil_iff.mp (List.isEmpty_iff.mp hc))
      · rw [List.all_eq_true]
        intro c hc
        exact natToRevChars_digits (n + 1) n c (List.mem_reverse.mp hc)
      · rw [bne_iff_ne, List.head?_reverse, hd3]
        intro hc
        exact digitChar_ne_zero d hd1 hd2 (Option.some.injEq _ _ ▸ hc)
    rw [arrayIndexKey?, if_pos hcond]
    rw [parseDigitsVal_reverse, natToRevChars_val n n (le_refl n)]

/-- Every character of the canonical decimal string of n is a digit. -/
theorem natToKey_digit_chars (n : Nat) (c : Char) (hc : c ∈ (natToKey n).toList) :
    isDigitChar c = true :=
  natToRevChars_digits (n + 1) n c (List.mem_reverse.mp hc)

/-- A canonical decimal index string carries no structural characters. -/
theorem natToKey_no_special (n : Nat) :
    '.' ∉ (natToKey n).toList ∧ '[' ∉ (natToKey n).toList ∧ ']' ∉ (natToKey n).toList := by
  refine ⟨?_, ?_, ?_⟩ <;>
    exact fun hc => absurd (natToKey_digit_chars _ _ hc) (by decide)

/-- The canonical decimal string of n is nonempty. -/
theorem natToKey_ne_empty (n : Nat) : natToKey n ≠ "" := by
  intro hc
  have h1 : (natToKey n).toList = [] := by rw [hc]; rfl
  have h2 : (natToRevChars (n + 1) n).reverse = [] := h1
  exact natToRevChars_ne_nil n n (List.reverse_eq_nil_iff.mp h2)

/-- An array owns the canonical decimal key of n exactly below its length. -/
theorem jsHas_natToKey (xs : List JSVal) (n : Nat) :
    jsHas (.arr xs) (natToKey n) = decide (n < xs.length) := by
  show (match arrayIndexKey? (natToKey n).toList with
    | some n => decide (n < xs.length)
    | none => false) = _
  rw [arrayIndexKey_natToKey]

/-- A field value is smaller than its object. -/
theorem sizeOf_field_lt (fs : List (String × JSVal)) (k : String) (c : JSVal)
    (h : (k, c) ∈ fs) : sizeOf c < sizeOf (JSVal.obj fs) := by
  have h1 := List.sizeOf_lt_of_mem h
  have h2 : sizeOf (k, c) = 1 + sizeOf k + sizeOf c := rfl
  simp only [JSVal.obj.sizeOf_spec]
  omega

/-- An element is smaller than its array. -/
theorem sizeOf_elem_lt (xs : List JSVal) (c : JSVal) (h : c ∈ xs) :
    sizeOf c < sizeOf (JSVal.arr xs) := by
  have h1 := List.sizeOf_lt_of_mem h
  simp only [JSVal.arr.sizeOf_spec]
  omega

/-- Unpacking a good key. -/
theorem goodKey_spec (k : String) (h : goodKey k = true) :
    k ≠ "" ∧ ('.' ∉ k.toList ∧ '[' ∉ k.toList ∧ ']' ∉ k.toList) ∧ '$' ∉ k.toList ∧ intLikeJS k = false := by
  simp only [goodKey, Bool.and_eq_true, Bool.not_eq_true', beq_eq_false_iff_ne, ne_eq] at h
  refine ⟨h.1.1.1.1.1, ⟨?_, ?_, ?_⟩, ?_, h.1.1.2⟩
  · intro hc
    have hfalse : List.elem '.' k.toList = false := h.1.1.1.1.2
    rw [List.elem_iff.mpr hc] at hfalse
    cases hfalse
  · intro hc
    have hfalse : List.elem '[' k.toList = false := h.1.2
    rw [List.elem_iff.mpr hc] at hfalse
    cases hfalse
  · intro hc
    have hfalse : List.elem ']' k.toList = false := h.2
    rw [List.elem_iff.mpr hc] at hfalse
    cases hfalse
  · intro hc
    have hfalse : List.elem '$' k.toList = false := h.1.1.1.2
    rw [List.elem_iff.mpr hc] at hfalse
    cases hfalse

/-- Membership unpack for good fields. -/
theorem goodFields_mem :
    ∀ (fs : List (String × JSVal)) (k : String) (c : JSVal),
      goodFields fs = true → (k, c) ∈ fs → goodKey k = true ∧ goodTree c = true
  | [], _, _, _, h => by cases h
  | (k0, c0) :: fs, k, c, hg, hm => by
    simp only [goodFields, Bool.and_eq_true] at hg
    rcases List.mem_cons.mp hm with h1 | h1
    · have hk : k = k0 := (Prod.mk.injEq _ _ _ _ ▸ h1).1
      have hc : c = c0 := (Prod.mk.injEq _ _ _ _ ▸ h1).2
      subst hk
      subst hc
      exact ⟨hg.1.1.1, hg.1.2⟩
    · exact goodFields_mem fs k c hg.2 h1

/-- Membership unpack for good elements. -/
theorem goodElems_mem :
    ∀ (xs : List JSVal) (c : JSVal), goodElems xs = true → c ∈ xs → goodTree c = true
  | [], _, _, h => by cases h
  | x :: xs, c, hg, hm => by
    simp only [goodElems, Bool.and_eq_true] at hg
    rcases List.mem_cons.mp hm with h1 | h1
    · exact h1 ▸ hg.1
    · exact goodElems_mem xs c hg.2 h1

/-- dfsFields unfolds through childPairs. -/
theorem dfsFields_cons (k : String) (v : JSVal) (fs : List (String × JSVal)) :
    dfsFields ((k, v) :: fs) = childPairs v k ++ dfsFields fs := rfl

/-- dfsElems unfolds through childPairs. -/
theorem dfsElems_cons (i : Nat) (x : JSVal) (xs : List JSVal) :
    dfsElems i (x :: xs) = childPairs x (natToKey i) ++ dfsElems (i + 1) xs := rfl

/-- Membership characterization under object fields. -/
theorem mem_dfsFields :
    ∀ (fs : List (String × JSVal)) (pr : List String × JSVal), pr ∈ dfsFields fs →
      ∃ k c, (k, c) ∈ fs ∧
        ((isObjectJS c = true ∧ ∃ q w, (q, w) ∈ dfsPairs c ∧ pr = (k :: q, w)) ∨
         (isObjectJS c = false ∧ pr = ([k], c)))
  | [], _, h => by cases h
  | (k0, c0) :: fs, pr, h => by
    rw [dfsFields_cons] at h
    rcases List.mem_append.mp h with h1 | h1
    · rw [childPairs] at h1
      by_cases hc : isObjectJS c0 = true
      · rw [if_pos hc] at h1
        rw [List.mem_map] at h1
        obtain ⟨pr0, hpr0, rfl⟩ := h1
        exact ⟨k0, c0, List.mem_cons_self _ _,
          Or.inl ⟨hc, pr0.1, pr0.2, hpr0, rfl⟩⟩
      · rw [if_neg hc] at h1
        rcases List.mem_cons.mp h1 with h2 | h2
        · exact ⟨k0, c0, List.mem_cons_self _ _,
            Or.inr ⟨Bool.not_eq_true _ ▸ hc, h2⟩⟩
        · cases h2
    · obtain ⟨k, c, hm, hcase⟩ := mem_dfsFields fs pr h1
      exact ⟨k, c, List.mem_cons_of_mem _ hm, hcase⟩

/-- Membership characterization under array elements. -/
theorem mem_dfsElems :
    ∀ (xs : List JSVal) (i : Nat) (pr : List String × JSVal), pr ∈ dfsElems i xs →
      ∃ j x, xs[j]? = some x ∧
        ((isObjectJS x = true ∧ ∃ q w, (q, w) ∈ dfsPairs x ∧ pr = (natToKey (i + j) :: q, w)) ∨
         (isObjectJS x = false ∧ pr = ([natToKey (i + j)], x)))
  | [], _, _, h => by cases h
  | x0 :: xs, i, pr, h => by
    rw [dfsElems_cons] at h
    rcases List.mem_append.mp h with h1 | h1
    · rw [childPairs] at h1
      by_cases hc : isObjectJS x0 = true
      · rw [if_pos hc] at h1
        rw [List.mem_map] at h1
        obtain ⟨pr0, hpr0, rfl⟩ := h1
        exact ⟨0, x0, List.getElem?_cons_zero, Or.inl ⟨hc, pr0.1, pr0.2, hpr0, by rfl⟩⟩
      · rw [if_neg hc] at h1
        rcases List.mem_cons.mp h1 with h2 | h2
        · exact ⟨0, x0, List.getElem?_cons_zero, Or.inr ⟨Bool.not_eq_true _ ▸ hc, h2⟩⟩
        · cases h2
    · obtain ⟨j, x, hj, hcase⟩ := mem_dfsElems xs (i + 1) pr h1
      refine ⟨j + 1, x, by rw [List.getElem?_cons_succ]; exact hj, ?_⟩
      have hidx : i + 1 + j = i + (j + 1) := by omega
      rw [hidx] at hcase
      exact hcase

/-- Every collected path of a good tree is a nonempty list of nonempty,
dot-free, dollar-free segments. -/
theorem dfs_path_facts_aux :
    ∀ N : Nat, ∀ v : JSVal, sizeOf v ≤ N → goodTree v = true →
      ∀ pr ∈ dfsPairs v, pr.1 ≠ [] ∧
        ∀ s ∈ pr.1, s ≠ "" ∧ ('.' ∉ s.toList ∧ '[' ∉ s.toList ∧ ']' ∉ s.toList) ∧ '$' ∉ s.toList := by
  intro N
  induction N using Nat.strong_induction_on with
  | _ N ih =>
    intro v hsz hgood pr hm
    cases v with
    | obj fs =>
      obtain ⟨k, c, hmem, hcase⟩ := mem_dfsFields fs pr hm
      simp only [goodTree, Bool.and_eq_true] at hgood
      obtain ⟨hk, hcgood⟩ := goodFields_mem fs k c hgood.2 hmem
      obtain ⟨hk1, hk2, hk3, _⟩ := goodKey_spec k hk
      rcases hcase with ⟨hcc, q, w, hqw, hpr⟩ | ⟨hcc, hpr⟩
      · subst hpr
        have hsm : sizeOf c < sizeOf (JSVal.obj fs) := sizeOf_field_lt fs k c hmem
        have hfacts := ih (sizeOf c) (by omega) c (le_refl _) hcgood (q, w) hqw
        refine ⟨List.cons_ne_nil _ _, ?_⟩
        intro s hs
        rcases List.mem_cons.mp hs with h1 | h1
        · exact h1 ▸ ⟨hk1, hk2, hk3⟩
        · exact hfacts.2 s h1
      · subst hpr
        exact ⟨List.cons_ne_nil _ _, by
          intro s hs
          rcases List.mem_cons.mp hs with h1 | h1
          · exact h1 ▸ ⟨hk1, hk2, hk3⟩
          · cases h1⟩
    | arr xs =>
      obtain ⟨j, x, hj, hcase⟩ := mem_dfsElems xs 0 pr hm
      simp only [goodTree, Bool.and_eq_true] at hgood
      have hxmem : x ∈ xs := List.getElem?_mem hj
      have hxgood : goodTree x = true := goodElems_mem xs x hgood.2 hxmem
      have hkey : natToKey (0 + j) ≠ "" ∧ ('.' ∉ (natToKey (0 + j)).toList ∧
          '[' ∉ (natToKey (0 + j)).toList ∧ ']' ∉ (natToKey (0 + j)).toList) ∧
          '$' ∉ (natToKey (0 + j)).toList := by
        refine ⟨natToKey_ne_empty _, natToKey_no_special _, ?_⟩
        intro hc2
        exact absurd (natToKey_digit_chars _ ('$') hc2) (by decide)
      rcases hcase with ⟨hcc, q, w, hqw, hpr⟩ | ⟨hcc, hpr⟩
      · subst hpr
        have hsm : sizeOf x < sizeOf (JSVal.arr xs) := sizeOf_elem_lt xs x hxmem
        have hfacts := ih (sizeOf x) (by omega) x (le_refl _) hxgood (q, w) hqw
        refine ⟨List.cons_ne_nil _ _, ?_⟩
        intro s hs
        rcases List.mem_cons.mp hs with h1 | h1
        · exact h1 ▸ hkey
        · exact hfacts.2 s h1
      · subst hpr
        exact ⟨List.cons_ne_nil _ _, by
          intro s hs
          rcases List.mem_cons.mp hs with h1 | h1
          · exact h1 ▸ hkey
          · cases h1⟩
    | undef => cases hm
    | null => cases hm
    | bool b => cases hm
    | num n => cases hm
    | str s => cases hm

/-- Wrapper for dfs_path_facts_aux. -/
theorem dfs_path_facts (v : JSVal) (hgood : goodTree v = true) :
    ∀ pr ∈ dfsPairs v, pr.1 ≠ [] ∧
      ∀ s ∈ pr.1, s ≠ "" ∧ ('.' ∉ s.toList ∧ '[' ∉ s.toList ∧ ']' ∉ s.toList) ∧ '$' ∉ s.toList :=
  dfs_path_facts_aux (sizeOf v) v (le_refl _) hgood

/-- No kind test passes on undefined. -/
theorem okStep_undef (b : String) : okStep .undef b = false := rfl

/-- Rebuilding a string from its characters. -/
theorem mk_toList (s : String) : String.mk s.toList = s := by
  cases s
  rfl

/-- Escaping a dot-free character list changes nothing. -/
theorem escapeChars_id : ∀ cs : List Char, '.' ∉ cs → escapeChars cs = cs
  | [], _ => rfl
  | c :: rest, h => by
    have hc : c ≠ '.' := fun hc => h (hc ▸ List.mem_cons_self _ _)
    simp only [escapeChars]
    rw [if_neg hc, escapeChars_id rest (fun hm => h (List.mem_cons_of_mem _ hm))]

/-- Escaping a dot-free key changes nothing. -/
theorem escapeKey_id (k : String) (h : '.' ∉ k.toList) : escapeKey k = k := by
  rw [escapeKey, escapeChars_id k.toList h, mk_toList]

/-- Joining a single segment is that segment. -/
theorem joinPathStr_single (k : String) : joinPathStr [k] = k := by
  show String.mk (joinDots [k.toList]) = k
  rw [show joinDots [k.toList] = k.toList from rfl, mk_toList]

/-- Joining a cons inserts one dot. -/
theorem joinPathStr_cons (k : String) (segs : List String) (hne : segs ≠ []) :
    joinPathStr (k :: segs) = k ++ "." ++ joinPathStr segs := by
  show String.mk (joinDots (k.toList :: segs.map String.toList)) = _
  rw [joinDots_cons_cons _ _ (by
    intro hc
    exact hne (List.map_eq_nil_iff.mp hc))]
  show String.mk (k.toList ++ '.' :: joinDots (segs.map String.toList)) =
    String.mk ((k.toList ++ ['.']) ++ joinDots (segs.map String.toList))
  exact congrArg String.mk (by simp)

/-- collectObjectPaths on a leaf returns just the parent. -/
theorem copVal_leaf (v : JSVal) (parent : String) (hc : isObjectJS v = false) :
    copVal v parent = [parent] := by
  cases v with
  | arr xs => cases hc
  | obj fs => cases hc
  | undef => rfl
  | null => rfl
  | bool b => rfl
  | num n => rfl
  | str s => rfl

mutual

/-- The prefixed collected paths of a good container are the joined dfs
paths under the parent. -/
theorem copVal_eq : ∀ (v : JSVal) (parent : String), goodTree v = true →
    isObjectJS v = true → parent ≠ "" →
    copVal v parent = (dfsPairs v).map (fun pr => joinPathStr (parent :: pr.1))
  | .arr xs, parent, hgood, _, hpar => by
    have hge : goodElems xs = true := by
      have h2 := hgood
      simp only [goodTree, Bool.and_eq_true] at h2
      exact h2.2
    show prefixParent parent (copList 0 xs) = _
    rw [prefixParent, if_neg hpar, copList_eq xs 0 hge, List.map_map]
    apply List.map_congr_left
    intro pr hpr
    show parent ++ "." ++ joinPathStr pr.1 = joinPathStr (parent :: pr.1)
    rw [joinPathStr_cons parent pr.1
      (dfs_path_facts (.arr xs) hgood pr hpr).1]
  | .obj fs, parent, hgood, _, hpar => by
    have hgf : goodFields fs = true := by
      have h2 := hgood
      simp only [goodTree, Bool.and_eq_true] at h2
      exact h2.2
    show prefixParent parent (copFields fs) = _
    rw [prefixParent, if_neg hpar, copFields_eq fs hgf, List.map_map]
    apply List.map_congr_left
    intro pr hpr
    show parent ++ "." ++ joinPathStr pr.1 = joinPathStr (parent :: pr.1)
    rw [joinPathStr_cons parent pr.1
      (dfs_path_facts (.obj fs) hgood pr hpr).1]
  | .undef, _, _, hc, _ => by cases hc
  | .null, _, _, hc, _ => by cases hc
  | .bool b, _, _, hc, _ => by cases hc
  | .num n, _, _, hc, _ => by cases hc
  | .str s, _, _, hc, _ => by cases hc

/-- The collected paths of good elements are the joined dfs paths. -/
theorem copList_eq : ∀ (xs : List JSVal) (i : Nat), goodElems xs = true →
    copList i xs = (dfsElems i xs).map (fun pr => joinPathStr pr.1)
  | [], _, _ => rfl
  | x :: xs, i, hg => by
    have hg2 := hg
    simp only [goodElems, Bool.and_eq_true] at hg2
    show copVal x (natToKey i) ++ copList (i + 1) xs = _
    rw [dfsElems_cons, List.map_append, copList_eq xs (i + 1) hg2.2]
    congr 1
    rw [childPairs]
    by_cases hc : isObjectJS x = true
    · rw [if_pos hc, copVal_eq x (natToKey i) hg2.1 hc (natToKey_ne_empty i), List.map_map]
      apply List.map_congr_left
      intro pr hpr
      rfl
    · have hc2 : isObjectJS x = false := by revert hc; cases isObjectJS x <;> simp
      rw [if_neg hc, copVal_leaf x (natToKey i) hc2]
      rw [List.map_cons, List.map_nil, joinPathStr_single]

/-- The collected paths of good fields are the joined dfs paths. -/
theorem copFields_eq : ∀ (fs : List (String × JSVal)), goodFields fs = true →
    copFields fs = (dfsFields fs).map (fun pr => joinPathStr pr.1)
  | [], _ => rfl
  | (k, v) :: fs, hg => by
    have hg2 := hg
    simp only [goodFields, Bool.and_eq_true] at hg2
    have hkey := goodKey_spec k hg2.1.1.1
    show (if isObjectJS v then copVal v (escapeKey k) else [escapeKey k]) ++ copFields fs = _
    rw [dfsFields_cons, List.map_append, copFields_eq fs hg2.2]
    congr 1
    rw [escapeKey_id k hkey.2.1.1, childPairs]
    by_cases hc : isObjectJS v = true
    · rw [if_pos hc, if_pos hc, copVal_eq v k hg2.1.2 hc hkey.1, List.map_map]
      apply List.map_congr_left
      intro pr hpr
      rfl
    · rw [if_neg hc, if_neg hc]
      rw [List.map_cons, List.map_nil, joinPathStr_single]

end

end Theorems

end FlowCalc
